import Mathlib

/-!
Verification of the seam-carving core of the liquid-resize demo.

The Rust source is shallowly embedded: `u8` channels become `Fin 256`,
`u32`/`usize` values become `Nat`, the intermediate `i32` energy arithmetic
becomes `Int`, and every fallible operation (vector indexing, slicing,
checked subtraction of unsigned machine integers, `Option::unwrap`) is
modelled in the `Option` monad, so a run that would panic evaluates to
`none`.
-/

namespace LiquidResize

/-- Checked subtraction of unsigned machine integers: `x - y` panics in Rust
(debug mode) when `y > x`, which we model as `none`. -/
def sub? (x y : Nat) : Option Nat :=
  if y ≤ x then some (x - y) else none

/-- Rust slice indexing `l[lo..=hi]`: panics (`none`) when the range is
invalid or reaches past the end of the vector. -/
def slice? (l : List Nat) (lo hi : Nat) : Option (List Nat) :=
  if lo ≤ hi + 1 ∧ hi < l.length then some ((l.drop lo).take (hi + 1 - lo)) else none

/-- Accumulator loop of `Iterator::min_by_key`: scan the remaining values
keeping the index of the current best; a new value replaces the best only
when strictly smaller, so ties keep the earliest index. -/
def firstMinAux : List Nat → Nat → Nat → Nat → Nat
  | [], _, bi, _ => bi
  | v :: rest, i, bi, bv =>
      if v < bv then firstMinAux rest (i + 1) i v else firstMinAux rest (i + 1) bi bv

/-- Index of the first minimum of a list, as computed by
`iter().enumerate().min_by_key(...)`; `none` on the empty list (the source
then calls `.unwrap()`, i.e. panics). -/
def minByFirst : List Nat → Option Nat
  | [] => none
  | v :: rest => some (firstMinAux rest 1 0 v)

/-- An RGB pixel, `[u8; 3]` in the source. -/
structure Pixel where
  c0 : Fin 256
  c1 : Fin 256
  c2 : Fin 256
deriving DecidableEq, Repr

/-- The all-black pixel, used only as a `getD` default on indices that are
proved in bounds. -/
def pxZero : Pixel := ⟨0, 0, 0⟩

/-- State of `OriginalAlgo`: flat row-major pixel vector plus dimensions. -/
structure OriginalAlgo where
  pixels : List Pixel
  width : Nat
  height : Nat
deriving DecidableEq, Repr

/-- `OriginalAlgo::new`: stores the three fields verbatim; the source
performs no validation whatsoever. -/
def OriginalAlgo.new (pixels : List Pixel) (width height : Nat) : OriginalAlgo :=
  { pixels := pixels, width := width, height := height }

/-- The intended grid invariant (stated in the design document, not checked
by the code): the flat pixel vector has exactly `width * height` entries. -/
def OriginalAlgo.wf (a : OriginalAlgo) : Prop :=
  a.pixels.length = a.width * a.height

instance (a : OriginalAlgo) : Decidable a.wf := by
  unfold OriginalAlgo.wf; infer_instance

/-- `OriginalAlgo::index_of`: flat offset of `(row, col)`. -/
def index_of (w row col : Nat) : Nat := w * row + col

/-- Rust's `as u32` cast applied to an `i32` value: reinterpret the two's
complement bits, i.e. reduce modulo `2^32`. -/
def i32_as_u32 (x : Int) : Nat := (x % 4294967296).toNat

/-- Body of the energy loop of `calculate_energy_matrix` for one `(row, col)`:
dual-gradient energy with boundary duplication, squared channel differences
computed in `i32`, final cast to `u32`. Pixel accesses are fallible. -/
def energyAt? (a : OriginalAlgo) (row col : Nat) : Option Nat :=
  (if col = 0 then a.pixels[a.width * row + col]?
   else a.pixels[a.width * row + col - 1]?).bind fun left =>
  (if col = a.width - 1 then a.pixels[a.width * row + col]?
   else a.pixels[a.width * row + col + 1]?).bind fun right =>
  let x_diff : Int := ((left.c0 : Int) - (right.c0 : Int)) ^ 2
      + ((left.c1 : Int) - (right.c1 : Int)) ^ 2
      + ((left.c2 : Int) - (right.c2 : Int)) ^ 2
  (if row = 0 then a.pixels[a.width * row + col]?
   else a.pixels[a.width * (row - 1) + col]?).bind fun above =>
  (if row = a.height - 1 then a.pixels[a.width * row + col]?
   else a.pixels[a.width * (row + 1) + col]?).bind fun below =>
  let y_diff : Int := ((above.c0 : Int) - (below.c0 : Int)) ^ 2
      + ((above.c1 : Int) - (below.c1 : Int)) ^ 2
      + ((above.c2 : Int) - (below.c2 : Int)) ^ 2
  some (i32_as_u32 (x_diff + y_diff))

/-- `OriginalAlgo::calculate_energy_matrix`: row-major flat vector of the
per-pixel energies. -/
def calculate_energy_matrix (a : OriginalAlgo) : Option (List Nat) := do
  let rows ← (List.range a.height).mapM
    (fun row => (List.range a.width).mapM (fun col => energyAt? a row col))
  pure rows.flatten

/-- One iteration of the inner dp loop (`for col in 1..width-1`): push
`energy[row][col] + min(dp[row-1][col-1], min(dp[row-1][col], dp[row-1][col+1]))`. -/
def dpMidStep (w : Nat) (em : List Nat) (row : Nat) (dp : List Nat) (col : Nat) :
    Option (List Nat) := do
  let e ← em[index_of w row col]?
  let x ← dp[index_of w (row - 1) (col - 1)]?
  let y ← dp[index_of w (row - 1) col]?
  let z ← dp[index_of w (row - 1) (col + 1)]?
  pure (dp ++ [e + min x (min y z)])

/-- One iteration of the outer dp loop (`for row in 1..height`): the left
edge, the interior columns, then the right edge. -/
def dpRowStep (w : Nat) (em : List Nat) (dp : List Nat) (row : Nat) :
    Option (List Nat) := do
  let e0 ← em[index_of w row 0]?
  let d0 ← dp[index_of w (row - 1) 0]?
  let d1 ← dp[index_of w (row - 1) 1]?
  let dp1 := dp ++ [e0 + min d0 d1]
  let dp2 ← (List.range' 1 (w - 1 - 1)).foldlM (dpMidStep w em row) dp1
  let wm1 ← sub? w 1
  let er ← em[index_of w row wm1]?
  let dr1 ← dp2[index_of w (row - 1) wm1]?
  let wm2 ← sub? w 2
  let dr2 ← dp2[index_of w (row - 1) wm2]?
  pure (dp2 ++ [er + min dr1 dr2])

/-- The dp-table construction of `remove_vertical_seam`: seed with the first
row of the energy matrix (`dp.extend(&energy_matrix[0..width])`, which panics
when the slice is too short) and fill the remaining rows. -/
def buildDp (w h : Nat) (em : List Nat) : Option (List Nat) :=
  if w ≤ em.length then (List.range' 1 (h - 1)).foldlM (dpRowStep w em) (em.take w)
  else none

/-- The range update of the backtrace: from the chosen flat offset of the
current row, the flat range of candidate predecessors in the row above
(two candidates at either grid edge, three in the interior). -/
def nextRange (w row new_idx : Nat) : Option (Nat × Nat) :=
  if new_idx = index_of w row 0 then
    some (index_of w (row - 1) 0, index_of w (row - 1) 1)
  else do
    let wm1 ← sub? w 1
    if new_idx = index_of w row wm1 then do
      let wm2 ← sub? w 2
      pure (index_of w (row - 1) wm2, index_of w (row - 1) wm1)
    else do
      let t ← sub? new_idx w
      let lo ← sub? t 1
      pure (lo, t + 1)

/-- The backtrace loop of `remove_vertical_seam` (`for row in (0..h).rev()`):
at each row take the first minimum of `dp[lo..=hi]`, push its flat offset,
and narrow the range for the row above. Offsets come out bottom-to-top. -/
def backtraceLoop (w : Nat) (dp : List Nat) : Nat → Nat → Nat → List Nat →
    Option (List Nat)
  | 0, lo, hi, acc => do
      let s ← slice? dp lo hi
      let i ← minByFirst s
      pure (acc ++ [lo + i])
  | row + 1, lo, hi, acc => do
      let s ← slice? dp lo hi
      let i ← minByFirst s
      let new_idx := lo + i
      let r ← nextRange w (row + 1) new_idx
      backtraceLoop w dp row r.1 r.2 (acc ++ [new_idx])

/-- The pixel filter shared by `remove_vertical_seam` and
`CarvingEngine::remove_seams` (the two loops are textually identical):
a single pass with a cursor into the sorted offset list, dropping a pixel
exactly when its flat index equals the offset under the cursor. -/
def removeIndicesAux : List Pixel → Nat → List Nat → List Pixel
  | [], _, _ => []
  | p :: rest, i, [] => p :: removeIndicesAux rest (i + 1) []
  | p :: rest, i, j :: js =>
      if i = j then removeIndicesAux rest (i + 1) js
      else p :: removeIndicesAux rest (i + 1) (j :: js)

/-- The filter pass starting at flat index 0. -/
def removeIndices (pixels : List Pixel) (toRemove : List Nat) : List Pixel :=
  removeIndicesAux pixels 0 toRemove

/-- `OriginalAlgo::remove_vertical_seam`: energy, dp table, backtrace,
reverse to top-to-bottom order, filter the pixels, decrement the width.
Returns the removed flat offsets together with the updated state. -/
def remove_vertical_seam (a : OriginalAlgo) : Option (List Nat × OriginalAlgo) := do
  let em ← calculate_energy_matrix a
  let dp ← buildDp a.width a.height em
  let hm1 ← sub? a.height 1
  let wm1 ← sub? a.width 1
  let rev ← backtraceLoop a.width dp hm1 (index_of a.width hm1 0)
      (index_of a.width hm1 wm1) []
  let tr := rev.reverse
  pure (tr, { pixels := removeIndices a.pixels tr, width := wm1, height := a.height })

/-- Pixel-reconstruction core of `CarvingEngine::remove_seams`: starting from
a fresh copy of the original pixels, apply the recorded filter for history
entries `0..num_seams`; the indexing `removed_seams[i]` panics (`none`) when
the entry does not exist yet. -/
def remove_seams (original : List Pixel) (history : List (List Nat)) (num_seams : Nat) :
    Option (List Pixel) :=
  (List.range num_seams).foldlM
    (fun px i => do
      let tr ← history[i]?
      pure (removeIndices px tr))
    original

/-- The worker loop body of `CarvingEngine::run_engine`, iterated `n` times:
remove one seam and append its offsets to the shared history. -/
def runEngineLoop : Nat → OriginalAlgo → List (List Nat) →
    Option (List (List Nat) × OriginalAlgo)
  | 0, a, hist => some (hist, a)
  | n + 1, a, hist => do
      let p ← remove_vertical_seam a
      runEngineLoop n p.2 (hist ++ [p.1])

/-- `CarvingEngine::run_engine`: the background worker performs exactly
`width - 10` seam removals (`for _ in 0..width - 10`, whose bound underflows
when the image is narrower than 10). -/
def run_engine (a : OriginalAlgo) : Option (List (List Nat) × OriginalAlgo) := do
  let n ← sub? a.width 10
  runEngineLoop n a []

/-! ### Specification-side functions

Total counterparts of the embedded loops, used to state and prove
properties. `dpVal` is the dynamic-programming recurrence, `btCols` the
column trace of the backtrace, and `energyVal` the energy of an in-bounds
pixel; each is proved below to agree with the fallible embedded code. -/

/-- Pixel lookup with a default; agrees with the fallible lookup on
in-bounds indices. -/
def pixAt (a : OriginalAlgo) (i : Nat) : Pixel := a.pixels.getD i pxZero

/-- The horizontal-left neighbour used by the energy loop (the pixel itself
in column 0). -/
def leftPx (a : OriginalAlgo) (row col : Nat) : Pixel :=
  if col = 0 then pixAt a (a.width * row + col) else pixAt a (a.width * row + col - 1)

/-- The horizontal-right neighbour (the pixel itself in the last column). -/
def rightPx (a : OriginalAlgo) (row col : Nat) : Pixel :=
  if col = a.width - 1 then pixAt a (a.width * row + col)
  else pixAt a (a.width * row + col + 1)

/-- The vertical neighbour above (the pixel itself in row 0). -/
def abovePx (a : OriginalAlgo) (row col : Nat) : Pixel :=
  if row = 0 then pixAt a (a.width * row + col) else pixAt a (a.width * (row - 1) + col)

/-- The vertical neighbour below (the pixel itself in the last row). -/
def belowPx (a : OriginalAlgo) (row col : Nat) : Pixel :=
  if row = a.height - 1 then pixAt a (a.width * row + col)
  else pixAt a (a.width * (row + 1) + col)

/-- Sum of squared channel differences of two pixels, in `i32`. -/
def sqDiff3 (p q : Pixel) : Int :=
  ((p.c0 : Int) - (q.c0 : Int)) ^ 2 + ((p.c1 : Int) - (q.c1 : Int)) ^ 2
    + ((p.c2 : Int) - (q.c2 : Int)) ^ 2

/-- The signed energy of pixel `(row, col)` before the cast to `u32`. -/
def energyInt (a : OriginalAlgo) (row col : Nat) : Int :=
  sqDiff3 (leftPx a row col) (rightPx a row col)
    + sqDiff3 (abovePx a row col) (belowPx a row col)

/-- The unsigned energy value of pixel `(row, col)`. -/
def energyVal (a : OriginalAlgo) (row col : Nat) : Nat :=
  i32_as_u32 (energyInt a row col)

/-- The dynamic-programming table value `dp[row][col]` over an abstract
energy function `e`, with the same three-way column split as the code. -/
def dpVal (e : Nat → Nat → Nat) (w : Nat) : Nat → Nat → Nat
  | 0, c => e 0 c
  | row + 1, c =>
      if c = 0 then e (row + 1) c + min (dpVal e w row 0) (dpVal e w row 1)
      else if c = w - 1 then
        e (row + 1) c + min (dpVal e w row (w - 1)) (dpVal e w row (w - 2))
      else
        e (row + 1) c
          + min (dpVal e w row (c - 1)) (min (dpVal e w row c) (dpVal e w row (c + 1)))

/-- The column picked by a first-minimum scan of `d` over `[ca, cb]`. -/
def pickCol (d : Nat → Nat) (ca cb : Nat) : Nat :=
  ca + (minByFirst ((List.range' ca (cb + 1 - ca)).map d)).getD 0

/-- The candidate-column range for the row above a chosen column `c`, written
as an inclusive pair: clipped at either grid edge, three-wide inside. -/
def branchRange (w c : Nat) : Nat × Nat :=
  if c = 0 then (0, 1) else if c = w - 1 then (w - 2, w - 1) else (c - 1, c + 1)

/-- Columns chosen by the backtrace, from row `row` down to row 0. -/
def btCols (e : Nat → Nat → Nat) (w : Nat) : Nat → Nat → Nat → List Nat
  | 0, ca, cb => [pickCol (dpVal e w 0) ca cb]
  | row + 1, ca, cb =>
      let c := pickCol (dpVal e w (row + 1)) ca cb
      c :: btCols e w row (branchRange w c).1 (branchRange w c).2

/-- Decorate a bottom-up column list, starting at `row`, with flat offsets. -/
def offsetsOf (w : Nat) : Nat → List Nat → List Nat
  | _, [] => []
  | row, c :: cs => (w * row + c) :: offsetsOf w (row - 1) cs

/-- `D` is the flat dp table of energies `e` on a `w × h` grid. -/
def DpMatch (w h : Nat) (e : Nat → Nat → Nat) (D : List Nat) : Prop :=
  D.length = w * h ∧ ∀ r, r < h → ∀ c, c < w → D[w * r + c]? = some (dpVal e w r c)

instance (w h : Nat) (e : Nat → Nat → Nat) (D : List Nat) :
    Decidable (DpMatch w h e D) := by
  unfold DpMatch
  infer_instance

/-- A connected vertical seam given by its column per row, top to bottom. -/
def IsColSeam (w h : Nat) (s : List Nat) : Prop :=
  s.length = h ∧ (∀ r, r < h → s.getD r 0 < w) ∧
    ∀ r, r + 1 < h → s.getD r 0 ≤ s.getD (r + 1) 0 + 1 ∧
      s.getD (r + 1) 0 ≤ s.getD r 0 + 1

/-- Total energy of a column seam under the energy function `e`. -/
def colSeamCost (e : Nat → Nat → Nat) (h : Nat) (s : List Nat) : Nat :=
  ∑ r ∈ Finset.range h, e r (s.getD r 0)

/-- The candidate predecessor columns of a column `c`, as a list: the two
in-range neighbours at a grid edge, `{c-1, c, c+1}` in the interior. -/
def candList (w c : Nat) : List Nat :=
  if c = 0 then [0, 1] else if c = w - 1 then [w - 2, w - 1] else [c - 1, c, c + 1]

/-- `c` attains the minimum of `d` on `S`, and is the least column of `S`
doing so: the leftmost-tie-break selection rule. -/
def IsLeftmostMin (d : Nat → Nat) (S : List Nat) (c : Nat) : Prop :=
  c ∈ S ∧ (∀ x ∈ S, d c ≤ d x) ∧ ∀ x ∈ S, x < c → d c < d x

/-! ### Basic lemmas about the helpers -/

theorem sub?_eq_some {x y : Nat} (h : y ≤ x) : sub? x y = some (x - y) := by
  simp [sub?, h]

theorem sub?_eq_none {x y : Nat} (h : x < y) : sub? x y = none := by
  simp [sub?]; omega

theorem getD_of_getElem? {α : Type} {l : List α} {i : Nat} {v d : α}
    (h : l[i]? = some v) : l.getD i d = v := by
  simp [List.getD_eq_getElem?_getD, h]

theorem getElem?_of_lt {α : Type} {d : α} {l : List α} {i : Nat} (h : i < l.length) :
    l[i]? = some (l.getD i d) := by
  rw [List.getElem?_eq_getElem h, List.getD_eq_getElem _ _ h]

/-- Full characterisation of the `min_by_key` accumulator loop: the result is
either the incoming best index (when nothing beats it) or `i + j` for the
first strict improvement `j` that is also a global-first minimum of the rest. -/
theorem firstMinAux_spec (rest : List Nat) : ∀ i bi bv : Nat,
    (firstMinAux rest i bi bv = bi ∧ ∀ j, j < rest.length → bv ≤ rest.getD j 0) ∨
    (∃ j, j < rest.length ∧ firstMinAux rest i bi bv = i + j ∧ rest.getD j 0 < bv ∧
      (∀ k, k < rest.length → rest.getD j 0 ≤ rest.getD k 0) ∧
      ∀ k, k < j → rest.getD j 0 < rest.getD k 0) := by
  induction rest with
  | nil => intro i bi bv; left; exact ⟨rfl, fun j hj => absurd hj (by simp)⟩
  | cons v t ih =>
    intro i bi bv
    by_cases hv : v < bv
    · right
      have h1 : firstMinAux (v :: t) i bi bv = firstMinAux t (i + 1) i v := by
        simp [firstMinAux, hv]
      rcases ih (i + 1) i v with ⟨heq, hall⟩ | ⟨j, hj, heq, hlt, hmin, hfirst⟩
      · refine ⟨0, by simp, by simp [h1, heq], by simpa using hv, ?_, ?_⟩
        · intro k hk
          cases k with
          | zero => simp
          | succ k => simpa using hall k (by simpa using hk)
        · intro k hk; omega
      · refine ⟨j + 1, by simpa using hj, ?_, ?_, ?_, ?_⟩
        · rw [h1, heq]; omega
        · simpa using lt_trans hlt hv
        · intro k hk
          cases k with
          | zero => simpa using le_of_lt hlt
          | succ k => simpa using hmin k (by simpa using hk)
        · intro k hk
          cases k with
          | zero => simpa using hlt
          | succ k => simpa using hfirst k (by omega)
    · have h1 : firstMinAux (v :: t) i bi bv = firstMinAux t (i + 1) bi bv := by
        simp [firstMinAux, hv]
      rcases ih (i + 1) bi bv with ⟨heq, hall⟩ | ⟨j, hj, heq, hlt, hmin, hfirst⟩
      · left
        refine ⟨by rw [h1, heq], ?_⟩
        intro j hj
        cases j with
        | zero => simpa using le_of_not_lt hv
        | succ j => simpa using hall j (by simpa using hj)
      · right
        refine ⟨j + 1, by simpa using hj, ?_, ?_, ?_, ?_⟩
        · rw [h1, heq]; omega
        · simpa using hlt
        · intro k hk
          cases k with
          | zero =>
            simp only [List.getD_cons_succ, List.getD_cons_zero]
            exact le_of_lt (lt_of_lt_of_le hlt (le_of_not_lt hv))
          | succ k => simpa using hmin k (by simpa using hk)
        · intro k hk
          cases k with
          | zero =>
            simp only [List.getD_cons_succ, List.getD_cons_zero]
            exact lt_of_lt_of_le hlt (le_of_not_lt hv)
          | succ k => simpa using hfirst k (by omega)

/-- The first-minimum scan returns the least index attaining the minimum. -/
theorem minByFirst_spec (l : List Nat) (hl : l ≠ []) :
    ∃ i, minByFirst l = some i ∧ i < l.length ∧
      (∀ k, k < l.length → l.getD i 0 ≤ l.getD k 0) ∧
      ∀ k, k < i → l.getD i 0 < l.getD k 0 := by
  match l, hl with
  | v :: t, _ =>
    rcases firstMinAux_spec t 1 0 v with ⟨heq, hall⟩ | ⟨j, hj, heq, hlt, hmin, hfirst⟩
    · refine ⟨0, by simp [minByFirst, heq], by simp, ?_, by omega⟩
      intro k hk
      cases k with
      | zero => simp
      | succ k => simpa using hall k (by simpa using hk)
    · refine ⟨1 + j, by simp [minByFirst, heq], by simpa using by omega, ?_, ?_⟩
      · have hgj : (v :: t).getD (1 + j) 0 = t.getD j 0 := by
          have : 1 + j = j + 1 := by omega
          simp [this]
        intro k hk
        rw [hgj]
        cases k with
        | zero => simpa using le_of_lt hlt
        | succ k => simpa using hmin k (by simpa using hk)
      · intro k hk
        have hgj : (v :: t).getD (1 + j) 0 = t.getD j 0 := by
          have : 1 + j = j + 1 := by omega
          simp [this]
        rw [hgj]
        cases k with
        | zero => simpa using hlt
        | succ k => simpa using hfirst k (by omega)

/-- Entries of a mapped `range'` list. -/
theorem range'_map_getD (d : Nat → Nat) (ca n k : Nat) (hk : k < n) :
    ((List.range' ca n).map d).getD k 0 = d (ca + k) := by
  apply getD_of_getElem?
  rw [List.getElem?_map, List.getElem?_range' ca 1 hk]
  simp

/-- The first-minimum column scan lands in `[ca, cb]`, attains the minimum of
`d` there, and beats every column strictly to its left. -/
theorem pickCol_spec (d : Nat → Nat) {ca cb : Nat} (h : ca ≤ cb) :
    ca ≤ pickCol d ca cb ∧ pickCol d ca cb ≤ cb ∧
    (∀ x, ca ≤ x → x ≤ cb → d (pickCol d ca cb) ≤ d x) ∧
    ∀ x, ca ≤ x → x < pickCol d ca cb → d (pickCol d ca cb) < d x := by
  set n := cb + 1 - ca with hn
  set l := (List.range' ca n).map d with hldef
  have hlen : l.length = n := by simp [hldef]
  have hne : l ≠ [] := by
    intro hemp
    have := congrArg List.length hemp
    rw [hlen] at this
    simp at this
    omega
  obtain ⟨i, hsome, hilt, hmin, hfirst⟩ := minByFirst_spec l hne
  have hpick : pickCol d ca cb = ca + i := by
    rw [pickCol, ← hn, ← hldef, hsome]
    rfl
  rw [hlen] at hilt
  have hvi : l.getD i 0 = d (ca + i) := range'_map_getD d ca n i hilt
  refine ⟨by omega, by omega, ?_, ?_⟩
  · intro x hax hxb
    have hk : x - ca < n := by omega
    have hvx : l.getD (x - ca) 0 = d x := by
      rw [range'_map_getD d ca n _ hk]
      congr 1
      omega
    rw [hpick, ← hvi, ← hvx]
    exact hmin _ (by rw [hlen]; omega)
  · intro x hax hxp
    rw [hpick] at hxp
    have hk : x - ca < i := by omega
    have hvx : l.getD (x - ca) 0 = d x := by
      rw [range'_map_getD d ca n _ (by omega)]
      congr 1
      omega
    rw [hpick, ← hvi, ← hvx]
    exact hfirst _ hk

/-- The slice `dp[w*row+ca ..= w*row+cb]` of the dp table is the list of dp
values of row `row` for columns `ca..cb`. -/
theorem slice?_eq_map {w h : Nat} {e : Nat → Nat → Nat} {D : List Nat}
    (hD : DpMatch w h e D) {row ca cb : Nat}
    (hrow : row < h) (hca : ca ≤ cb) (hcb : cb < w) :
    slice? D (w * row + ca) (w * row + cb) =
      some ((List.range' ca (cb + 1 - ca)).map (dpVal e w row)) := by
  obtain ⟨hlen, hent⟩ := hD
  have hhi : w * row + cb < D.length := by
    rw [hlen]
    have h1 : w * row + cb < w * (row + 1) := by
      have : w * (row + 1) = w * row + w := by ring
      omega
    have h2 : w * (row + 1) ≤ w * h := Nat.mul_le_mul_left w (by omega)
    omega
  rw [slice?, if_pos ⟨by omega, hhi⟩]
  congr 1
  have harith : w * row + cb + 1 - (w * row + ca) = cb + 1 - ca := by omega
  rw [harith]
  apply List.ext_getElem?
  intro k
  by_cases hk : k < cb + 1 - ca
  · rw [List.getElem?_take_of_lt hk, List.getElem?_drop,
      List.getElem?_map, List.getElem?_range' ca 1 hk]
    have harith2 : w * row + ca + k = w * (row) + (ca + k) := by omega
    rw [harith2, hent row hrow (ca + k) (by omega)]
    simp
  · have h1 : ((D.drop (w * row + ca)).take (cb + 1 - ca))[k]? = none := by
      apply List.getElem?_eq_none
      have := List.length_take (cb + 1 - ca) (D.drop (w * row + ca))
      omega
    have h2 : ((List.range' ca (cb + 1 - ca)).map (dpVal e w row))[k]? = none := by
      apply List.getElem?_eq_none
      simp
      omega
    rw [h1, h2]

theorem offsetsOf_length (w : Nat) : ∀ (cs : List Nat) (row : Nat),
    (offsetsOf w row cs).length = cs.length := by
  intro cs
  induction cs with
  | nil => intro row; rfl
  | cons c cs ih => intro row; simp [offsetsOf, ih]

theorem offsetsOf_getD (w : Nat) : ∀ (cs : List Nat) (row j : Nat), j < cs.length →
    (offsetsOf w row cs).getD j 0 = w * (row - j) + cs.getD j 0 := by
  intro cs
  induction cs with
  | nil => intro row j hj; simp at hj
  | cons c cs ih =>
    intro row j hj
    cases j with
    | zero => simp [offsetsOf]
    | succ j =>
      have harith : row - (j + 1) = row - 1 - j := by omega
      simp only [offsetsOf, List.getD_cons_succ]
      rw [ih (row - 1) j (by simpa using hj), harith]

theorem removeIndicesAux_nil_toRemove : ∀ (l : List Pixel) (i : Nat),
    removeIndicesAux l i [] = l := by
  intro l
  induction l with
  | nil => intro i; rfl
  | cons p rest ih => intro i; simp [removeIndicesAux, ih]

/-- A strictly increasing list of naturals inside a window of size `n` has at
most `n` entries. -/
theorem pairwise_lt_length_le : ∀ (tr : List Nat) (a n : Nat),
    tr.Pairwise (· < ·) → (∀ j ∈ tr, a ≤ j ∧ j < a + n) → tr.length ≤ n := by
  intro tr
  induction tr with
  | nil => intro a n _ _; simp
  | cons j js ih =>
    intro a n hp hb
    obtain ⟨hhead, htail⟩ := List.pairwise_cons.mp hp
    have hj := hb j (by simp)
    have hn : 1 ≤ n := by omega
    have : js.length ≤ n - 1 := by
      apply ih (j + 1) (n - 1) htail
      intro x hx
      have h1 := hhead x hx
      have h2 := hb x (by simp [hx])
      omega
    simpa using by omega

/-- Filtering out a strictly increasing in-bounds offset list removes exactly
one pixel per offset. -/
theorem removeIndicesAux_length : ∀ (l : List Pixel) (i : Nat) (tr : List Nat),
    tr.Pairwise (· < ·) → (∀ j ∈ tr, i ≤ j ∧ j < i + l.length) →
    (removeIndicesAux l i tr).length = l.length - tr.length := by
  intro l
  induction l with
  | nil =>
    intro i tr _ hb
    cases tr with
    | nil => rfl
    | cons j js =>
      have hcontra := hb j (by simp)
      simp only [List.length_nil] at hcontra
      omega
  | cons p rest ih =>
    intro i tr hp hb
    cases tr with
    | nil => simp [removeIndicesAux, removeIndicesAux_nil_toRemove]
    | cons j js =>
      obtain ⟨hhead, htail⟩ := List.pairwise_cons.mp hp
      by_cases hij : i = j
      · rw [removeIndicesAux, if_pos hij]
        have hlen := ih (i + 1) js htail (by
          intro x hx
          have h1 := hhead x hx
          have h2 := hb x (by simp [hx])
          simp only [List.length_cons] at h2
          omega)
        rw [hlen]
        simp [Nat.succ_sub_succ]
      · rw [removeIndicesAux, if_neg hij]
        have hbnd : ∀ x ∈ j :: js, i + 1 ≤ x ∧ x < (i + 1) + rest.length := by
          intro x hx
          rcases List.mem_cons.mp hx with hx | hx
          · subst hx
            have h2 := hb x (by simp)
            simp only [List.length_cons] at h2
            omega
          · have h1 := hhead x hx
            have h2 := hb x (by simp [hx])
            have h3 := hb j (by simp)
            simp only [List.length_cons] at h2 h3
            omega
        have hcnt : (j :: js).length ≤ rest.length :=
          pairwise_lt_length_le (j :: js) (i + 1) rest.length hp hbnd
        have hlen := ih (i + 1) (j :: js) hp hbnd
        simp only [List.length_cons] at hcnt ⊢
        rw [hlen]
        simp only [List.length_cons]
        omega

theorem getElem_eq_getD {α : Type} {d : α} {l : List α} {i : Nat} (h : i < l.length) :
    l[i] = l.getD i d :=
  (List.getD_eq_getElem l d h).symm

theorem removeIndices_length (pixels : List Pixel) (tr : List Nat)
    (hp : tr.Pairwise (· < ·)) (hb : ∀ j ∈ tr, j < pixels.length) :
    (removeIndices pixels tr).length = pixels.length - tr.length := by
  apply removeIndicesAux_length pixels 0 tr hp
  intro j hj
  exact ⟨Nat.zero_le j, by simpa using hb j hj⟩

/-! ### The energy computation -/

theorem flat_index_lt {w h row col : Nat} (hr : row < h) (hc : col < w) :
    w * row + col < w * h := by
  have h1 : w * row + col < w * (row + 1) := by
    have : w * (row + 1) = w * row + w := by ring
    omega
  have h2 : w * (row + 1) ≤ w * h := Nat.mul_le_mul_left w (by omega)
  omega

theorem pixels_getElem?_eq {a : OriginalAlgo} (hwf : a.wf) {i : Nat}
    (hi : i < a.width * a.height) : a.pixels[i]? = some (pixAt a i) :=
  getElem?_of_lt (by rw [hwf.symm] at hi; exact hi)

/-- On an in-bounds pixel of a well-formed grid, the embedded energy loop body
succeeds and computes `energyVal`. -/
theorem energyAt?_eq {a : OriginalAlgo} (hwf : a.wf) {row col : Nat}
    (hr : row < a.height) (hc : col < a.width) :
    energyAt? a row col = some (energyVal a row col) := by
  have hself : a.width * row + col < a.width * a.height := flat_index_lt hr hc
  have hleft : (if col = 0 then a.pixels[a.width * row + col]?
      else a.pixels[a.width * row + col - 1]?) = some (leftPx a row col) := by
    unfold leftPx
    split
    · exact pixels_getElem?_eq hwf hself
    · exact pixels_getElem?_eq hwf (by omega)
  have hright : (if col = a.width - 1 then a.pixels[a.width * row + col]?
      else a.pixels[a.width * row + col + 1]?) = some (rightPx a row col) := by
    unfold rightPx
    split
    · exact pixels_getElem?_eq hwf hself
    · next hne =>
        have hb : a.width * row + (col + 1) < a.width * a.height :=
          flat_index_lt hr (by omega)
        exact pixels_getElem?_eq hwf (by omega)
  have habove : (if row = 0 then a.pixels[a.width * row + col]?
      else a.pixels[a.width * (row - 1) + col]?) = some (abovePx a row col) := by
    unfold abovePx
    split
    · exact pixels_getElem?_eq hwf hself
    · exact pixels_getElem?_eq hwf (flat_index_lt (by omega) hc)
  have hbelow : (if row = a.height - 1 then a.pixels[a.width * row + col]?
      else a.pixels[a.width * (row + 1) + col]?) = some (belowPx a row col) := by
    unfold belowPx
    split
    · exact pixels_getElem?_eq hwf hself
    · next hne => exact pixels_getElem?_eq hwf (flat_index_lt (by omega) hc)
  rw [energyAt?, hleft, Option.some_bind, hright, Option.some_bind,
    habove, Option.some_bind, hbelow, Option.some_bind]
  rfl

theorem sqDiff3_nonneg (p q : Pixel) : 0 ≤ sqDiff3 p q := by
  unfold sqDiff3
  positivity

theorem channel_le (x : Fin 256) : (x : Int) ≤ 255 := by
  exact_mod_cast Nat.le_of_lt_succ x.isLt

theorem channel_nonneg (x : Fin 256) : 0 ≤ (x : Int) := by
  exact_mod_cast Nat.zero_le x.val

theorem sqDiff3_le (p q : Pixel) : sqDiff3 p q ≤ 195075 := by
  unfold sqDiff3
  have b0 := channel_le p.c0
  have b1 := channel_le p.c1
  have b2 := channel_le p.c2
  have b3 := channel_le q.c0
  have b4 := channel_le q.c1
  have b5 := channel_le q.c2
  have n0 := channel_nonneg p.c0
  have n1 := channel_nonneg p.c1
  have n2 := channel_nonneg p.c2
  have n3 := channel_nonneg q.c0
  have n4 := channel_nonneg q.c1
  have n5 := channel_nonneg q.c2
  have s0 : ((p.c0 : Int) - (q.c0 : Int)) ^ 2 ≤ 255 ^ 2 :=
    sq_le_sq' (by omega) (by omega)
  have s1 : ((p.c1 : Int) - (q.c1 : Int)) ^ 2 ≤ 255 ^ 2 :=
    sq_le_sq' (by omega) (by omega)
  have s2 : ((p.c2 : Int) - (q.c2 : Int)) ^ 2 ≤ 255 ^ 2 :=
    sq_le_sq' (by omega) (by omega)
  norm_num at s0 s1 s2 ⊢
  omega

theorem energyInt_nonneg (a : OriginalAlgo) (row col : Nat) :
    0 ≤ energyInt a row col :=
  add_nonneg (sqDiff3_nonneg _ _) (sqDiff3_nonneg _ _)

theorem energyInt_le (a : OriginalAlgo) (row col : Nat) :
    energyInt a row col ≤ 390150 := by
  have h1 := sqDiff3_le (leftPx a row col) (rightPx a row col)
  have h2 := sqDiff3_le (abovePx a row col) (belowPx a row col)
  unfold energyInt
  omega

/-- The `as u32` cast is the identity on small non-negative values. -/
theorem i32_as_u32_of_small {x : Int} (h0 : 0 ≤ x) (h1 : x < 4294967296) :
    i32_as_u32 x = x.toNat := by
  unfold i32_as_u32
  rw [Int.emod_eq_of_lt h0 h1]

theorem energyVal_eq_toNat (a : OriginalAlgo) (row col : Nat) :
    energyVal a row col = (energyInt a row col).toNat := by
  exact i32_as_u32_of_small (energyInt_nonneg a row col)
    (lt_of_le_of_lt (energyInt_le a row col) (by norm_num))

theorem energyVal_le (a : OriginalAlgo) (row col : Nat) :
    energyVal a row col ≤ 390150 := by
  rw [energyVal_eq_toNat]
  have := energyInt_le a row col
  omega

/-- A `mapM` over `Option` with everywhere-successful body. -/
theorem mapM_eq_some {α β : Type} (l : List α) (f : α → Option β) (g : α → β)
    (h : ∀ x ∈ l, f x = some (g x)) : l.mapM f = some (l.map g) := by
  induction l with
  | nil => rfl
  | cons x xs ih =>
    rw [List.mapM_cons, h x (by simp), ih (fun y hy => h y (by simp [hy]))]
    rfl

/-- Flat indexing into the concatenation of equal-length rows. -/
theorem flatten_uniform {w : Nat} : ∀ (L : List (List Nat)),
    (∀ l ∈ L, l.length = w) →
    L.flatten.length = L.length * w ∧
      ∀ r c, r < L.length → c < w → L.flatten[w * r + c]? = (L.getD r [])[c]? := by
  intro L
  induction L with
  | nil => intro _; exact ⟨by simp, fun r c hr _ => absurd hr (by simp)⟩
  | cons l L ih =>
    intro hall
    have hl : l.length = w := hall l (by simp)
    obtain ⟨ihlen, ihget⟩ := ih (fun x hx => hall x (by simp [hx]))
    constructor
    · simp [ihlen, hl]
      ring
    · intro r c hr hc
      cases r with
      | zero =>
        simp only [List.flatten_cons, Nat.mul_zero, Nat.zero_add, List.getD_cons_zero]
        rw [List.getElem?_append_left (by omega)]
      | succ r =>
        simp only [List.flatten_cons, List.getD_cons_succ]
        have harith : w * (r + 1) + c = l.length + (w * r + c) := by
          rw [hl]; ring
        rw [harith, List.getElem?_append_right (by omega)]
        simp only [Nat.add_sub_cancel_left]
        exact ihget r c (by simpa using hr) hc

/-- On a well-formed grid the energy matrix computation succeeds, has one
entry per pixel, and each entry is `energyVal`. -/
theorem calculate_energy_matrix_eq (a : OriginalAlgo) (hwf : a.wf) :
    ∃ em, calculate_energy_matrix a = some em ∧
      em.length = a.width * a.height ∧
      ∀ r c, r < a.height → c < a.width →
        em[a.width * r + c]? = some (energyVal a r c) := by
  have hinner : ∀ r ∈ List.range a.height,
      (List.range a.width).mapM (fun col => energyAt? a r col) =
        some ((List.range a.width).map (energyVal a r)) := by
    intro r hr
    exact mapM_eq_some _ _ _ (fun c hc =>
      energyAt?_eq hwf (List.mem_range.mp hr) (List.mem_range.mp hc))
  have houter : (List.range a.height).mapM
      (fun row => (List.range a.width).mapM (fun col => energyAt? a row col)) =
        some ((List.range a.height).map (fun r => (List.range a.width).map (energyVal a r))) :=
    mapM_eq_some _ _ _ hinner
  have hall : ∀ l ∈ (List.range a.height).map
      (fun r => (List.range a.width).map (energyVal a r)), l.length = a.width := by
    intro l hl
    obtain ⟨r, _, rfl⟩ := List.mem_map.mp hl
    simp
  obtain ⟨hlen, hget⟩ := flatten_uniform
    ((List.range a.height).map (fun r => (List.range a.width).map (energyVal a r))) hall
  refine ⟨((List.range a.height).map
      (fun r => (List.range a.width).map (energyVal a r))).flatten, ?_, ?_, ?_⟩
  · rw [calculate_energy_matrix, houter]
    rfl
  · rw [hlen]
    simp [Nat.mul_comm]
  · intro r c hr hc
    rw [hget r c (by simpa using hr) hc]
    have hrow : ((List.range a.height).map
        (fun r => (List.range a.width).map (energyVal a r))).getD r [] =
          (List.range a.width).map (energyVal a r) := by
      apply getD_of_getElem?
      rw [List.getElem?_map, List.getElem?_range hr]
      rfl
    rw [hrow, List.getElem?_map, List.getElem?_range hc]
    rfl

/-! ### The dp table -/

/-- `em` is the flat energy matrix of `e` on a `w × h` grid. -/
def EmMatch (w h : Nat) (e : Nat → Nat → Nat) (em : List Nat) : Prop :=
  em.length = w * h ∧ ∀ r c, r < h → c < w → em[w * r + c]? = some (e r c)

theorem dpVal_zero (e : Nat → Nat → Nat) (w c : Nat) : dpVal e w 0 c = e 0 c := rfl

theorem dpVal_succ (e : Nat → Nat → Nat) (w row c : Nat) :
    dpVal e w (row + 1) c =
      if c = 0 then e (row + 1) c + min (dpVal e w row 0) (dpVal e w row 1)
      else if c = w - 1 then
        e (row + 1) c + min (dpVal e w row (w - 1)) (dpVal e w row (w - 2))
      else e (row + 1) c
          + min (dpVal e w row (c - 1)) (min (dpVal e w row c) (dpVal e w row (c + 1))) :=
  rfl

/-- Appending one computed dp row extends the match by one row. -/
theorem DpMatch_extend {w row : Nat} {e : Nat → Nat → Nat} {dp : List Nat}
    (hbase : DpMatch w row e dp) :
    DpMatch w (row + 1) e (dp ++ (List.range w).map (dpVal e w row)) := by
  obtain ⟨hlen, hent⟩ := hbase
  constructor
  · simp [hlen]
    ring
  · intro r hr c hc
    rcases Nat.lt_succ_iff_lt_or_eq.mp hr with hr | rfl
    · rw [List.getElem?_append_left (by
        rw [hlen]; exact flat_index_lt hr hc)]
      exact hent r hr c hc
    · rw [List.getElem?_append_right (by rw [hlen]; omega)]
      rw [hlen, Nat.add_sub_cancel_left, List.getElem?_map, List.getElem?_range hc]
      rfl

/-- One interior-column step of the dp row loop computes `dpVal`. -/
theorem dpMidStep_eq {w h row : Nat} {e : Nat → Nat → Nat} {em dp : List Nat}
    (hEM : EmMatch w h e em) (hbase : DpMatch w row e dp)
    (hrow1 : 1 ≤ row) (hrowh : row < h) {s : Nat} (hs1 : 1 ≤ s) (hsw : s + 1 ≤ w - 1) :
    dpMidStep w em row (dp ++ (List.range s).map (dpVal e w row)) s =
      some (dp ++ (List.range (s + 1)).map (dpVal e w row)) := by
  obtain ⟨hemlen, hement⟩ := hEM
  obtain ⟨hdplen, hdpent⟩ := hbase
  have hw2 : 2 ≤ w := by omega
  have hsweq : s < w := by omega
  have hacc : ∀ c, c < w →
      (dp ++ (List.range s).map (dpVal e w row))[w * (row - 1) + c]? =
        some (dpVal e w (row - 1) c) := by
    intro c hc
    rw [List.getElem?_append_left (by
      rw [hdplen]; exact flat_index_lt (by omega) hc)]
    exact hdpent (row - 1) (by omega) c hc
  simp only [dpMidStep, index_of]
  rw [hement row s hrowh hsweq, hacc (s - 1) (by omega), hacc s hsweq,
    hacc (s + 1) (by omega)]
  simp only [Option.bind_eq_bind, Option.some_bind]
  congr 1
  rw [List.range_succ, List.map_append, ← List.append_assoc]
  congr 1
  obtain ⟨row', rfl⟩ : ∃ r', row = r' + 1 := ⟨row - 1, by omega⟩
  simp only [Nat.add_sub_cancel, List.map_cons, List.map_nil]
  congr 1
  rw [dpVal_succ, if_neg (by omega), if_neg (by omega)]

/-- The interior-column fold fills columns `s..s+n-1` of the dp row. -/
theorem dpMid_fold {w h row : Nat} {e : Nat → Nat → Nat} {em dp : List Nat}
    (hEM : EmMatch w h e em) (hbase : DpMatch w row e dp)
    (hrow1 : 1 ≤ row) (hrowh : row < h) : ∀ (n s : Nat), 1 ≤ s → s + n ≤ w - 1 →
    (List.range' s n).foldlM (dpMidStep w em row)
        (dp ++ (List.range s).map (dpVal e w row)) =
      some (dp ++ (List.range (s + n)).map (dpVal e w row)) := by
  intro n
  induction n with
  | zero => intro s _ _; rfl
  | succ n ih =>
    intro s hs1 hsn
    rw [List.range'_succ, List.foldlM_cons,
      dpMidStep_eq hEM hbase hrow1 hrowh hs1 (by omega)]
    simp only [Option.bind_eq_bind, Option.some_bind]
    rw [ih (s + 1) (by omega) (by omega)]
    have harith : s + 1 + n = s + (n + 1) := by omega
    rw [harith]

/-- One full iteration of the dp row loop appends exactly the next dp row. -/
theorem dpRowStep_eq {w h row : Nat} {e : Nat → Nat → Nat} {em dp : List Nat}
    (hEM : EmMatch w h e em) (hbase : DpMatch w row e dp)
    (hw : 2 ≤ w) (hrow1 : 1 ≤ row) (hrowh : row < h) :
    dpRowStep w em dp row = some (dp ++ (List.range w).map (dpVal e w row)) := by
  obtain ⟨hemlen, hement⟩ := hEM
  obtain ⟨hdplen, hdpent⟩ := hbase
  have hfirst : dp ++ [e row 0 + min (dpVal e w (row - 1) 0) (dpVal e w (row - 1) 1)] =
      dp ++ (List.range 1).map (dpVal e w row) := by
    congr 1
    obtain ⟨row', rfl⟩ : ∃ r', row = r' + 1 := ⟨row - 1, by omega⟩
    simp only [Nat.add_sub_cancel]
    have hr1 : List.range 1 = [0] := rfl
    rw [hr1, List.map_cons, List.map_nil, dpVal_succ, if_pos rfl]
  simp only [dpRowStep, index_of]
  rw [hement row 0 hrowh (by omega),
    hdpent (row - 1) (by omega) 0 (by omega),
    hdpent (row - 1) (by omega) 1 (by omega)]
  simp only [Option.bind_eq_bind, Option.some_bind]
  simp only [Nat.add_zero] at hfirst
  rw [hfirst, dpMid_fold ⟨hemlen, hement⟩ ⟨hdplen, hdpent⟩ hrow1 hrowh (w - 1 - 1) 1
    (by omega) (by omega)]
  simp only [Option.bind_eq_bind, Option.some_bind]
  have hmid : 1 + (w - 1 - 1) = w - 1 := by omega
  rw [hmid, sub?_eq_some (show 1 ≤ w by omega)]
  simp only [Option.bind_eq_bind, Option.some_bind]
  have haccmid : ∀ c, c < w →
      (dp ++ (List.range (w - 1)).map (dpVal e w row))[w * (row - 1) + c]? =
        some (dpVal e w (row - 1) c) := by
    intro c hc
    rw [List.getElem?_append_left (by
      rw [hdplen]; exact flat_index_lt (by omega) hc)]
    exact hdpent (row - 1) (by omega) c hc
  rw [hement row (w - 1) hrowh (by omega), haccmid (w - 1) (by omega)]
  simp only [Option.bind_eq_bind, Option.some_bind]
  rw [sub?_eq_some (show 2 ≤ w by omega)]
  simp only [Option.bind_eq_bind, Option.some_bind]
  rw [haccmid (w - 2) (by omega)]
  simp only [Option.bind_eq_bind, Option.some_bind]
  congr 1
  have hsplit : List.range w = List.range (w - 1) ++ [w - 1] := by
    have hweq : w = (w - 1) + 1 := by omega
    conv_lhs => rw [hweq]
    rw [List.range_succ]
  rw [hsplit, List.map_append, ← List.append_assoc]
  congr 1
  obtain ⟨row', rfl⟩ : ∃ r', row = r' + 1 := ⟨row - 1, by omega⟩
  simp only [Nat.add_sub_cancel, List.map_cons, List.map_nil]
  congr 1
  rw [dpVal_succ, if_neg (by omega), if_pos rfl]

/-- The dp row fold fills rows `s..s+n-1` of the dp table. -/
theorem dpRows_fold {w h : Nat} {e : Nat → Nat → Nat} {em : List Nat}
    (hEM : EmMatch w h e em) (hw : 2 ≤ w) : ∀ (n s : Nat) (dp : List Nat), 1 ≤ s →
    s + n ≤ h → DpMatch w s e dp →
    ∃ D, (List.range' s n).foldlM (dpRowStep w em) dp = some D ∧
      DpMatch w (s + n) e D := by
  intro n
  induction n with
  | zero => intro s dp _ _ hm; exact ⟨dp, rfl, hm⟩
  | succ n ih =>
    intro s dp hs1 hsn hm
    have hstep := dpRowStep_eq hEM hm hw hs1 (by omega)
    have hnext : DpMatch w (s + 1) e (dp ++ (List.range w).map (dpVal e w s)) :=
      DpMatch_extend hm
    obtain ⟨D, ihfold, ihmatch⟩ := ih (s + 1) (dp ++ (List.range w).map (dpVal e w s))
      (by omega) (by omega) hnext
    refine ⟨D, ?_, ?_⟩
    · rw [List.range'_succ, List.foldlM_cons, hstep]
      simp only [Option.bind_eq_bind, Option.some_bind]
      exact ihfold
    · have harith : s + (n + 1) = (s + 1) + n := by omega
      rw [harith]
      exact ihmatch

/-- On a well-formed energy matrix the dp construction succeeds and produces
the table of `dpVal` values. -/
theorem buildDp_eq {w h : Nat} {e : Nat → Nat → Nat} {em : List Nat}
    (hEM : EmMatch w h e em) (hw : 2 ≤ w) (hh : 1 ≤ h) :
    ∃ D, buildDp w h em = some D ∧ DpMatch w h e D := by
  obtain ⟨hemlen, hement⟩ := hEM
  have hwle : w ≤ em.length := by
    rw [hemlen]
    exact Nat.le_mul_of_pos_right w (by omega)
  have hinit : DpMatch w 1 e (em.take w) := by
    constructor
    · rw [List.length_take]
      omega
    · intro r hr c hc
      have hr0 : r = 0 := by omega
      subst hr0
      rw [List.getElem?_take_of_lt (by simpa using hc)]
      have := hement 0 c (by omega) hc
      simpa using this
  obtain ⟨D, hfold, hmatch⟩ := dpRows_fold ⟨hemlen, hement⟩ hw (h - 1) 1 (em.take w)
    (by omega) (by omega) hinit
  refine ⟨D, ?_, ?_⟩
  · rw [buildDp, if_pos hwle]
    exact hfold
  · have harith : 1 + (h - 1) = h := by omega
    rwa [harith] at hmatch

/-! ### The backtrace -/

theorem btCols_zero (e : Nat → Nat → Nat) (w ca cb : Nat) :
    btCols e w 0 ca cb = [pickCol (dpVal e w 0) ca cb] := rfl

theorem btCols_succ (e : Nat → Nat → Nat) (w row ca cb : Nat) :
    btCols e w (row + 1) ca cb =
      pickCol (dpVal e w (row + 1)) ca cb ::
        btCols e w row (branchRange w (pickCol (dpVal e w (row + 1)) ca cb)).1
          (branchRange w (pickCol (dpVal e w (row + 1)) ca cb)).2 := rfl

theorem btCols_length (e : Nat → Nat → Nat) (w : Nat) : ∀ row ca cb,
    (btCols e w row ca cb).length = row + 1 := by
  intro row
  induction row with
  | zero => intro ca cb; rfl
  | succ row ih => intro ca cb; rw [btCols_succ, List.length_cons, ih]

theorem btCols_head (e : Nat → Nat → Nat) (w : Nat) (row ca cb : Nat) :
    (btCols e w row ca cb).getD 0 0 = pickCol (dpVal e w row) ca cb := by
  cases row with
  | zero => rfl
  | succ row => rfl

theorem branchRange_le {w c : Nat} (hw : 2 ≤ w) (_hc : c < w) :
    (branchRange w c).1 ≤ (branchRange w c).2 := by
  unfold branchRange
  split
  · simp
  · split <;> simp <;> omega

theorem branchRange_lt {w c : Nat} (hw : 2 ≤ w) (hc : c < w) :
    (branchRange w c).2 < w := by
  unfold branchRange
  split
  · simpa using hw
  · split
    · simp; omega
    · next h1 h2 => simp; omega

theorem branchRange_adj {w c : Nat} (_hw : 2 ≤ w) (hc : c < w) {x : Nat}
    (h1 : (branchRange w c).1 ≤ x) (h2 : x ≤ (branchRange w c).2) :
    c ≤ x + 1 ∧ x ≤ c + 1 := by
  unfold branchRange at h1 h2
  by_cases e0 : c = 0
  · rw [if_pos e0] at h1 h2
    simp at h1 h2
    omega
  · rw [if_neg e0] at h1 h2
    by_cases e1 : c = w - 1
    · rw [if_pos e1] at h1 h2
      simp at h1 h2
      omega
    · rw [if_neg e1] at h1 h2
      simp at h1 h2
      omega

theorem candList_eq_range' {w c : Nat} (hw : 2 ≤ w) (hc : c < w) :
    candList w c =
      List.range' (branchRange w c).1
        ((branchRange w c).2 + 1 - (branchRange w c).1) := by
  unfold candList branchRange
  by_cases e0 : c = 0
  · rw [if_pos e0, if_pos e0]
    rfl
  · rw [if_neg e0, if_neg e0]
    by_cases e1 : c = w - 1
    · rw [if_pos e1, if_pos e1]
      simp only
      have h2 : w - 1 + 1 - (w - 2) = 2 := by omega
      rw [h2]
      have h3 : List.range' (w - 2) 2 = [w - 2, w - 2 + 1] := rfl
      rw [h3]
      have h4 : w - 2 + 1 = w - 1 := by omega
      rw [h4]
    · rw [if_neg e1, if_neg e1]
      simp only
      have h2 : c + 1 + 1 - (c - 1) = 3 := by omega
      rw [h2]
      have h3 : List.range' (c - 1) 3 = [c - 1, c - 1 + 1, c - 1 + 1 + 1] := rfl
      rw [h3]
      have h4 : c - 1 + 1 = c := by omega
      rw [h4]

theorem pickCol_isLeftmost (d : Nat → Nat) {ca cb : Nat} (h : ca ≤ cb) :
    IsLeftmostMin d (List.range' ca (cb + 1 - ca)) (pickCol d ca cb) := by
  obtain ⟨h1, h2, h3, h4⟩ := pickCol_spec d h
  refine ⟨?_, ?_, ?_⟩
  · rw [List.mem_range'_1]
    omega
  · intro x hx
    rw [List.mem_range'_1] at hx
    exact h3 x hx.1 (by omega)
  · intro x hx hlt
    rw [List.mem_range'_1] at hx
    exact h4 x hx.1 hlt

/-- The backtrace branch computes exactly the candidate range of the row
above, in flat-offset form. -/
theorem nextRange_eq {w : Nat} (hw : 2 ≤ w) {row c : Nat} (hc : c < w) (hrow : 1 ≤ row) :
    nextRange w row (w * row + c) =
      some (w * (row - 1) + (branchRange w c).1, w * (row - 1) + (branchRange w c).2) := by
  have hple : w * (row - 1) + w = w * row := by
    have h1 : row - 1 + 1 = row := by omega
    calc w * (row - 1) + w = w * (row - 1 + 1) := by ring
    _ = w * row := by rw [h1]
  by_cases e0 : c = 0
  · subst e0
    rw [nextRange, if_pos (by rw [index_of])]
    rw [branchRange, if_pos rfl, index_of, index_of]
  · rw [nextRange, if_neg (by rw [index_of]; omega)]
    rw [sub?_eq_some (show 1 ≤ w by omega)]
    simp only [Option.bind_eq_bind, Option.some_bind]
    by_cases e1 : c = w - 1
    · subst e1
      rw [if_pos (by rw [index_of])]
      rw [sub?_eq_some (show 2 ≤ w by omega)]
      simp only [Option.bind_eq_bind, Option.some_bind]
      rw [branchRange, if_neg e0, if_pos rfl, index_of, index_of]
      rfl
    · rw [if_neg (by rw [index_of]; omega)]
      rw [sub?_eq_some (show w ≤ w * row + c by omega)]
      simp only [Option.bind_eq_bind, Option.some_bind]
      rw [sub?_eq_some (show 1 ≤ w * row + c - w by omega)]
      simp only [Option.bind_eq_bind, Option.some_bind]
      rw [branchRange, if_neg e0, if_neg e1]
      congr 2 <;> omega

/-- The backtrace loop over a dp table matching `dpVal` succeeds and pushes
exactly the offsets of the `btCols` trace onto the accumulator. -/
theorem backtraceLoop_eq {w h : Nat} {e : Nat → Nat → Nat} {D : List Nat}
    (hD : DpMatch w h e D) (hw : 2 ≤ w) : ∀ row ca cb (acc : List Nat), row < h →
    ca ≤ cb → cb < w →
    backtraceLoop w D row (w * row + ca) (w * row + cb) acc =
      some (acc ++ offsetsOf w row (btCols e w row ca cb)) := by
  intro row
  induction row with
  | zero =>
    intro ca cb acc hrow hca hcb
    rw [backtraceLoop, slice?_eq_map hD hrow hca hcb]
    simp only [Option.bind_eq_bind, Option.some_bind]
    have hne : (List.range' ca (cb + 1 - ca)).map (dpVal e w 0) ≠ [] := by
      intro hemp
      have := congrArg List.length hemp
      simp at this
      omega
    obtain ⟨i, hsome, hilen, _, _⟩ := minByFirst_spec _ hne
    rw [hsome]
    simp only [Option.bind_eq_bind, Option.some_bind]
    have hpick : pickCol (dpVal e w 0) ca cb = ca + i := by
      rw [pickCol, hsome, Option.getD_some]
    rw [btCols_zero]
    have hoff : offsetsOf w 0 [pickCol (dpVal e w 0) ca cb] =
        [w * 0 + pickCol (dpVal e w 0) ca cb] := rfl
    have hval : w * 0 + ca + i = w * 0 + pickCol (dpVal e w 0) ca cb := by
      rw [hpick]
      omega
    rw [hoff, ← hval]
    rfl
  | succ row ih =>
    intro ca cb acc hrow hca hcb
    rw [backtraceLoop, slice?_eq_map hD hrow hca hcb]
    simp only [Option.bind_eq_bind, Option.some_bind]
    have hne : (List.range' ca (cb + 1 - ca)).map (dpVal e w (row + 1)) ≠ [] := by
      intro hemp
      have := congrArg List.length hemp
      simp at this
      omega
    obtain ⟨i, hsome, hilen, _, _⟩ := minByFirst_spec _ hne
    rw [hsome]
    simp only [Option.bind_eq_bind, Option.some_bind]
    have hpick : pickCol (dpVal e w (row + 1)) ca cb = ca + i := by
      rw [pickCol, hsome, Option.getD_some]
    simp only [List.length_map, List.length_range'] at hilen
    have hc : ca + i < w := by omega
    have harg : w * (row + 1) + ca + i = w * (row + 1) + (ca + i) := by omega
    rw [harg, nextRange_eq hw hc (by omega)]
    simp only [Option.bind_eq_bind, Option.some_bind]
    set c := ca + i with hcdef
    set br := branchRange w c with hbr
    have hbr1 : br.1 ≤ br.2 := branchRange_le hw hc
    have hbr2 : br.2 < w := branchRange_lt hw hc
    have hrec := ih br.1 br.2 (acc ++ [w * (row + 1) + c]) (by omega) hbr1 hbr2
    have hsub : row + 1 - 1 = row := by omega
    rw [hsub, hrec]
    rw [btCols_succ, hpick, ← hbr]
    have hoff : offsetsOf w (row + 1) (c :: btCols e w row br.1 br.2) =
        (w * (row + 1) + c) :: offsetsOf w row (btCols e w row br.1 br.2) := rfl
    rw [hoff, List.append_assoc, List.singleton_append]

/-! ### Properties of the traced seam -/

/-- Every column of the trace is in range, and consecutive columns differ by
at most one. -/
theorem btCols_all (e : Nat → Nat → Nat) {w : Nat} (hw : 2 ≤ w) : ∀ row {ca cb : Nat},
    ca ≤ cb → cb < w →
    (∀ j, j ≤ row → (btCols e w row ca cb).getD j 0 < w) ∧
    (∀ j, j < row →
      (btCols e w row ca cb).getD j 0 ≤ (btCols e w row ca cb).getD (j + 1) 0 + 1 ∧
      (btCols e w row ca cb).getD (j + 1) 0 ≤ (btCols e w row ca cb).getD j 0 + 1) := by
  intro row
  induction row with
  | zero =>
    intro ca cb hca hcb
    refine ⟨?_, by omega⟩
    intro j hj
    have hj0 : j = 0 := by omega
    subst hj0
    rw [btCols_head]
    have := pickCol_spec (dpVal e w 0) hca
    omega
  | succ row ih =>
    intro ca cb hca hcb
    have hpk := pickCol_spec (dpVal e w (row + 1)) hca
    set c := pickCol (dpVal e w (row + 1)) ca cb with hc
    have hcw : c < w := by omega
    have hbr1 := branchRange_le hw hcw
    have hbr2 := branchRange_lt hw hcw
    obtain ⟨ihb, iha⟩ := ih hbr1 hbr2
    have hhead := btCols_head e w row (branchRange w c).1 (branchRange w c).2
    have hheadb : (branchRange w c).1 ≤
          (btCols e w row (branchRange w c).1 (branchRange w c).2).getD 0 0 ∧
        (btCols e w row (branchRange w c).1 (branchRange w c).2).getD 0 0 ≤
          (branchRange w c).2 := by
      rw [hhead]
      have := pickCol_spec (dpVal e w row) hbr1
      omega
    constructor
    · intro j hj
      cases j with
      | zero =>
        rw [btCols_succ, ← hc, List.getD_cons_zero]
        omega
      | succ j =>
        rw [btCols_succ, ← hc, List.getD_cons_succ]
        exact ihb j (by omega)
    · intro j hj
      cases j with
      | zero =>
        rw [btCols_succ, ← hc, List.getD_cons_zero, List.getD_cons_succ]
        have := branchRange_adj hw hcw hheadb.1 hheadb.2
        omega
      | succ j =>
        rw [btCols_succ, ← hc, List.getD_cons_succ, List.getD_cons_succ]
        exact iha j (by omega)

/-- Unfolding the dp recurrence through the backtrace choice: the column the
backtrace picks in the row above attains the minimum of the recurrence. -/
theorem dpVal_succ_pick (e : Nat → Nat → Nat) {w : Nat} (hw : 2 ≤ w) {c : Nat}
    (hc : c < w) (row : Nat) :
    dpVal e w (row + 1) c =
      e (row + 1) c +
        dpVal e w row (pickCol (dpVal e w row) (branchRange w c).1 (branchRange w c).2) := by
  have hbr1 := branchRange_le hw hc
  have hpk := pickCol_spec (dpVal e w row) hbr1
  set p := pickCol (dpVal e w row) (branchRange w c).1 (branchRange w c).2 with hp
  by_cases e0 : c = 0
  · subst e0
    rw [dpVal_succ, if_pos rfl]
    congr 1
    have hbr : branchRange w 0 = (0, 1) := by rw [branchRange, if_pos rfl]
    rw [hbr] at hpk
    simp only at hpk
    have hcase : p = 0 ∨ p = 1 := by omega
    have hle0 : dpVal e w row p ≤ dpVal e w row 0 := hpk.2.2.1 0 (by omega) (by omega)
    have hle1 : dpVal e w row p ≤ dpVal e w row 1 := hpk.2.2.1 1 (by omega) (by omega)
    rcases hcase with hcp | hcp <;> rw [hcp] at hle0 hle1 ⊢ <;> omega
  · by_cases e1 : c = w - 1
    · rw [dpVal_succ, if_neg e0, if_pos e1]
      congr 1
      have hbr : branchRange w c = (w - 2, w - 1) := by
        rw [branchRange, if_neg e0, if_pos e1]
      rw [hbr] at hpk
      simp only at hpk
      have hcase : p = w - 2 ∨ p = w - 1 := by omega
      have hle0 : dpVal e w row p ≤ dpVal e w row (w - 1) :=
        hpk.2.2.1 (w - 1) (by omega) (by omega)
      have hle1 : dpVal e w row p ≤ dpVal e w row (w - 2) :=
        hpk.2.2.1 (w - 2) (by omega) (by omega)
      rcases hcase with hcp | hcp <;> rw [hcp] at hle0 hle1 ⊢ <;> omega
    · rw [dpVal_succ, if_neg e0, if_neg e1]
      congr 1
      have hbr : branchRange w c = (c - 1, c + 1) := by
        rw [branchRange, if_neg e0, if_neg e1]
      rw [hbr] at hpk
      simp only at hpk
      have hcase : p = c - 1 ∨ p = c ∨ p = c + 1 := by omega
      have hle0 : dpVal e w row p ≤ dpVal e w row (c - 1) :=
        hpk.2.2.1 (c - 1) (by omega) (by omega)
      have hle1 : dpVal e w row p ≤ dpVal e w row c := hpk.2.2.1 c (by omega) (by omega)
      have hle2 : dpVal e w row p ≤ dpVal e w row (c + 1) :=
        hpk.2.2.1 (c + 1) (by omega) (by omega)
      rcases hcase with hcp | hcp | hcp <;> rw [hcp] at hle0 hle1 hle2 ⊢ <;> omega

/-- The total energy along the traced seam telescopes to the dp value of its
bottom cell. -/
theorem btCols_cost (e : Nat → Nat → Nat) {w : Nat} (hw : 2 ≤ w) : ∀ row {ca cb : Nat},
    ca ≤ cb → cb < w →
    ∑ j ∈ Finset.range (row + 1), e (row - j) ((btCols e w row ca cb).getD j 0) =
      dpVal e w row ((btCols e w row ca cb).getD 0 0) := by
  intro row
  induction row with
  | zero =>
    intro ca cb hca hcb
    rw [Finset.sum_range_one, btCols_head]
    rfl
  | succ row ih =>
    intro ca cb hca hcb
    have hpk := pickCol_spec (dpVal e w (row + 1)) hca
    set c := pickCol (dpVal e w (row + 1)) ca cb with hc
    have hcw : c < w := by omega
    have hbr1 := branchRange_le hw hcw
    have hbr2 := branchRange_lt hw hcw
    rw [btCols_succ, ← hc]
    rw [Finset.sum_range_succ']
    have hterm : ∀ j ∈ Finset.range (row + 1),
        e (row + 1 - (j + 1))
            ((c :: btCols e w row (branchRange w c).1 (branchRange w c).2).getD (j + 1) 0) =
          e (row - j)
            ((btCols e w row (branchRange w c).1 (branchRange w c).2).getD j 0) := by
      intro j hj
      rw [List.getD_cons_succ]
      congr 1
      omega
    rw [Finset.sum_congr rfl hterm, ih hbr1 hbr2]
    simp only [List.getD_cons_zero]
    have hsub0 : row + 1 - 0 = row + 1 := rfl
    rw [hsub0, dpVal_succ_pick e hw hcw row,
      ← btCols_head e w row (branchRange w c).1 (branchRange w c).2]
    omega

/-- The seam columns selected by the trace follow the leftmost-minimum rule
at the bottom row and at every upward step. -/
theorem btCols_leftmost (e : Nat → Nat → Nat) {w : Nat} (hw : 2 ≤ w) :
    ∀ row {ca cb : Nat}, ca ≤ cb → cb < w →
    IsLeftmostMin (dpVal e w row) (List.range' ca (cb + 1 - ca))
      ((btCols e w row ca cb).getD 0 0) ∧
    ∀ j, j < row →
      IsLeftmostMin (dpVal e w (row - (j + 1)))
        (candList w ((btCols e w row ca cb).getD j 0))
        ((btCols e w row ca cb).getD (j + 1) 0) := by
  intro row
  induction row with
  | zero =>
    intro ca cb hca hcb
    refine ⟨?_, by omega⟩
    rw [btCols_head]
    exact pickCol_isLeftmost (dpVal e w 0) hca
  | succ row ih =>
    intro ca cb hca hcb
    have hpk := pickCol_spec (dpVal e w (row + 1)) hca
    set c := pickCol (dpVal e w (row + 1)) ca cb with hc
    have hcw : c < w := by omega
    have hbr1 := branchRange_le hw hcw
    have hbr2 := branchRange_lt hw hcw
    obtain ⟨ihhead, ihstep⟩ := ih hbr1 hbr2
    constructor
    · rw [btCols_head]
      exact pickCol_isLeftmost (dpVal e w (row + 1)) hca
    · intro j hj
      cases j with
      | zero =>
        rw [btCols_succ, ← hc, List.getD_cons_zero, List.getD_cons_succ]
        have hsub : row + 1 - (0 + 1) = row := by omega
        rw [hsub, candList_eq_range' hw hcw]
        exact ihhead
      | succ j =>
        rw [btCols_succ, ← hc, List.getD_cons_succ, List.getD_cons_succ]
        have hsub : row + 1 - (j + 1 + 1) = row - (j + 1) := by omega
        rw [hsub]
        exact ihstep j (by omega)

/-- Lower bound: the dp value at any cell of a connected seam is at most the
seam cost accumulated down to that row. -/
theorem dpVal_succ_le (e : Nat → Nat → Nat) {w : Nat} (hw : 2 ≤ w) {c cp : Nat}
    (hc : c < w) (hcp : cp < w) (h1 : c ≤ cp + 1) (h2 : cp ≤ c + 1) (row : Nat) :
    dpVal e w (row + 1) c ≤ e (row + 1) c + dpVal e w row cp := by
  by_cases e0 : c = 0
  · subst e0
    rw [dpVal_succ, if_pos rfl]
    have hcase : cp = 0 ∨ cp = 1 := by omega
    rcases hcase with hcp' | hcp' <;> subst hcp'
    · exact Nat.add_le_add_left (Nat.min_le_left _ _) _
    · exact Nat.add_le_add_left (Nat.min_le_right _ _) _
  · by_cases e1 : c = w - 1
    · rw [dpVal_succ, if_neg e0, if_pos e1]
      have hcase : cp = w - 2 ∨ cp = w - 1 := by omega
      rcases hcase with hcp' | hcp' <;> subst hcp'
      · exact Nat.add_le_add_left (Nat.min_le_right _ _) _
      · exact Nat.add_le_add_left (Nat.min_le_left _ _) _
    · rw [dpVal_succ, if_neg e0, if_neg e1]
      have hcase : cp = c - 1 ∨ cp = c ∨ cp = c + 1 := by omega
      rcases hcase with hcp' | hcp' | hcp'
      · subst hcp'
        exact Nat.add_le_add_left (Nat.min_le_left _ _) _
      · subst hcp'
        exact Nat.add_le_add_left
          (le_trans (Nat.min_le_right _ _) (Nat.min_le_left _ _)) _
      · subst hcp'
        exact Nat.add_le_add_left
          (le_trans (Nat.min_le_right _ _) (Nat.min_le_right _ _)) _

theorem dpVal_le_seam (e : Nat → Nat → Nat) {w h : Nat} (hw : 2 ≤ w) {s : List Nat}
    (hs : IsColSeam w h s) : ∀ R, R < h →
    dpVal e w R (s.getD R 0) ≤ ∑ r ∈ Finset.range (R + 1), e r (s.getD r 0) := by
  obtain ⟨hlen, hbound, hadj⟩ := hs
  intro R
  induction R with
  | zero =>
    intro hR
    rw [Finset.sum_range_one]
    exact le_of_eq (dpVal_zero e w _)
  | succ R ih =>
    intro hR
    have hstep := dpVal_succ_le e hw (hbound (R + 1) hR) (hbound R (by omega))
      (hadj R hR).2 (hadj R hR).1 R
    calc dpVal e w (R + 1) (s.getD (R + 1) 0)
        ≤ e (R + 1) (s.getD (R + 1) 0) + dpVal e w R (s.getD R 0) := hstep
    _ ≤ e (R + 1) (s.getD (R + 1) 0) + ∑ r ∈ Finset.range (R + 1), e r (s.getD r 0) :=
        Nat.add_le_add_left (ih (by omega)) _
    _ = ∑ r ∈ Finset.range (R + 1 + 1), e r (s.getD r 0) := by
        conv_rhs => rw [Finset.sum_range_succ]
        omega

/-! ### Assembling `remove_vertical_seam` -/

/-- The bottom-up column trace of the seam the code removes. -/
def traceOf (a : OriginalAlgo) : List Nat :=
  btCols (energyVal a) a.width (a.height - 1) 0 (a.width - 1)

/-- The flat offsets returned by `remove_vertical_seam`, top-to-bottom. -/
def seamOf (a : OriginalAlgo) : List Nat :=
  (offsetsOf a.width (a.height - 1) (traceOf a)).reverse

/-- The seam's column per row, top-to-bottom. -/
def seamColsOf (a : OriginalAlgo) : List Nat :=
  (List.range a.height).map (fun r => (traceOf a).getD (a.height - 1 - r) 0)

/-- On a well-formed grid with at least two columns and one row,
`remove_vertical_seam` succeeds and returns exactly the traced seam, the
filtered pixels, and the decremented width. -/
theorem remove_vertical_seam_eq (a : OriginalAlgo) (hwf : a.wf) (hw : 2 ≤ a.width)
    (hh : 1 ≤ a.height) :
    remove_vertical_seam a = some (seamOf a,
      { pixels := removeIndices a.pixels (seamOf a), width := a.width - 1,
        height := a.height }) := by
  obtain ⟨em, hem, hemlen, hement⟩ := calculate_energy_matrix_eq a hwf
  obtain ⟨D, hD, hDM⟩ := buildDp_eq ⟨hemlen, hement⟩ hw hh
  have hbt := backtraceLoop_eq hDM hw (a.height - 1) 0 (a.width - 1) [] (by omega)
    (by omega) (by omega)
  rw [remove_vertical_seam, hem]
  simp only [Option.bind_eq_bind, Option.some_bind]
  rw [hD]
  simp only [Option.some_bind]
  rw [sub?_eq_some hh]
  simp only [Option.some_bind]
  rw [sub?_eq_some (show 1 ≤ a.width by omega)]
  simp only [Option.some_bind, index_of]
  simp only [Nat.add_zero] at hbt ⊢
  rw [hbt]
  simp only [Option.some_bind, List.nil_append]
  rfl

theorem traceOf_length (a : OriginalAlgo) (hh : 1 ≤ a.height) :
    (traceOf a).length = a.height := by
  rw [traceOf, btCols_length]
  omega

theorem seamOf_length (a : OriginalAlgo) (hh : 1 ≤ a.height) :
    (seamOf a).length = a.height := by
  rw [seamOf, List.length_reverse, offsetsOf_length, traceOf_length a hh]

theorem seamColsOf_length (a : OriginalAlgo) : (seamColsOf a).length = a.height := by
  simp [seamColsOf]

theorem seamColsOf_getD (a : OriginalAlgo) {r : Nat} (hr : r < a.height) :
    (seamColsOf a).getD r 0 = (traceOf a).getD (a.height - 1 - r) 0 := by
  apply getD_of_getElem?
  rw [seamColsOf, List.getElem?_map, List.getElem?_range hr]
  rfl

/-- The offsets of the returned seam: `width * row + column`. -/
theorem seamOf_getD (a : OriginalAlgo) (hh : 1 ≤ a.height) {r : Nat}
    (hr : r < a.height) :
    (seamOf a).getD r 0 = a.width * r + (seamColsOf a).getD r 0 := by
  have hlen : (offsetsOf a.width (a.height - 1) (traceOf a)).length = a.height := by
    rw [offsetsOf_length, traceOf_length a hh]
  have hrev : (seamOf a)[r]? =
      (offsetsOf a.width (a.height - 1) (traceOf a))[a.height - 1 - r]? := by
    rw [seamOf, List.getElem?_reverse (by omega), hlen]
  have hj : a.height - 1 - r < (traceOf a).length := by
    rw [traceOf_length a hh]
    omega
  have hoff : (offsetsOf a.width (a.height - 1) (traceOf a)).getD (a.height - 1 - r) 0 =
      a.width * (a.height - 1 - (a.height - 1 - r)) + (traceOf a).getD (a.height - 1 - r) 0 :=
    offsetsOf_getD a.width (traceOf a) (a.height - 1) (a.height - 1 - r) hj
  have hsub : a.height - 1 - (a.height - 1 - r) = r := by omega
  rw [seamColsOf_getD a hr]
  apply getD_of_getElem?
  rw [hrev, getElem?_of_lt (d := 0) (show a.height - 1 - r <
    (offsetsOf a.width (a.height - 1) (traceOf a)).length by rw [hlen]; omega)]
  rw [hsub] at hoff
  rw [hoff]

theorem seamColsOf_isColSeam (a : OriginalAlgo) (hw : 2 ≤ a.width)
    (hh : 1 ≤ a.height) : IsColSeam a.width a.height (seamColsOf a) := by
  have htr : traceOf a =
      btCols (energyVal a) a.width (a.height - 1) 0 (a.width - 1) := rfl
  obtain ⟨hb, hadj⟩ := btCols_all (energyVal a) hw (a.height - 1)
    (show (0:Nat) ≤ a.width - 1 by omega) (show a.width - 1 < a.width by omega)
  refine ⟨seamColsOf_length a, ?_, ?_⟩
  · intro r hr
    rw [seamColsOf_getD a hr, htr]
    exact hb (a.height - 1 - r) (by omega)
  · intro r hr
    rw [seamColsOf_getD a (by omega), seamColsOf_getD a hr, htr]
    have hstep := hadj (a.height - 1 - (r + 1)) (by omega)
    have hsub : a.height - 1 - (r + 1) + 1 = a.height - 1 - r := by omega
    rw [hsub] at hstep
    omega

/-- The cost of the returned seam is the dp value of its bottom cell. -/
theorem seamColsOf_cost (a : OriginalAlgo) (hw : 2 ≤ a.width) (hh : 1 ≤ a.height) :
    colSeamCost (energyVal a) a.height (seamColsOf a) =
      dpVal (energyVal a) a.width (a.height - 1) ((traceOf a).getD 0 0) := by
  have h1 : colSeamCost (energyVal a) a.height (seamColsOf a) =
      ∑ r ∈ Finset.range a.height,
        (fun j => energyVal a (a.height - 1 - j) ((traceOf a).getD j 0))
          (a.height - 1 - r) := by
    rw [colSeamCost]
    apply Finset.sum_congr rfl
    intro r hr
    rw [Finset.mem_range] at hr
    rw [seamColsOf_getD a hr]
    show energyVal a r ((traceOf a).getD (a.height - 1 - r) 0) =
      energyVal a (a.height - 1 - (a.height - 1 - r))
        ((traceOf a).getD (a.height - 1 - r) 0)
    have hidx : a.height - 1 - (a.height - 1 - r) = r := by omega
    rw [hidx]
  have h2 := Finset.sum_range_reflect
    (fun j => energyVal a (a.height - 1 - j) ((traceOf a).getD j 0)) a.height
  rw [h1, h2]
  have htr : traceOf a =
      btCols (energyVal a) a.width (a.height - 1) 0 (a.width - 1) := rfl
  have h3 := btCols_cost (energyVal a) hw (a.height - 1)
    (show (0:Nat) ≤ a.width - 1 by omega) (show a.width - 1 < a.width by omega)
  have hsub : a.height - 1 + 1 = a.height := by omega
  rw [hsub] at h3
  show ∑ j ∈ Finset.range a.height,
      energyVal a (a.height - 1 - j) ((traceOf a).getD j 0) =
    dpVal (energyVal a) a.width (a.height - 1) ((traceOf a).getD 0 0)
  rw [htr]
  exact h3

/-- Minimality: no connected column seam has a smaller total energy. -/
theorem seamColsOf_minimal (a : OriginalAlgo) (hw : 2 ≤ a.width) (hh : 1 ≤ a.height) :
    ∀ s, IsColSeam a.width a.height s →
      colSeamCost (energyVal a) a.height (seamColsOf a) ≤
        colSeamCost (energyVal a) a.height s := by
  intro s hs
  rw [seamColsOf_cost a hw hh]
  have hhead : (traceOf a).getD 0 0 =
      pickCol (dpVal (energyVal a) a.width (a.height - 1)) 0 (a.width - 1) :=
    btCols_head _ _ _ _ _
  have hpk := pickCol_spec (dpVal (energyVal a) a.width (a.height - 1))
    (show (0:Nat) ≤ a.width - 1 by omega)
  have hsb : s.getD (a.height - 1) 0 < a.width := hs.2.1 (a.height - 1) (by omega)
  have hle1 : dpVal (energyVal a) a.width (a.height - 1) ((traceOf a).getD 0 0) ≤
      dpVal (energyVal a) a.width (a.height - 1) (s.getD (a.height - 1) 0) := by
    rw [hhead]
    exact hpk.2.2.1 _ (by omega) (by omega)
  have hle2 := dpVal_le_seam (energyVal a) hw hs (a.height - 1) (by omega)
  have hsub : a.height - 1 + 1 = a.height := by omega
  rw [hsub] at hle2
  exact le_trans hle1 hle2

theorem seamOf_pairwise (a : OriginalAlgo) (hw : 2 ≤ a.width) (hh : 1 ≤ a.height) :
    (seamOf a).Pairwise (· < ·) := by
  rw [List.pairwise_iff_getElem]
  intro i j hi hj hij
  have hi2 : i < a.height := by rw [seamOf_length a hh] at hi; exact hi
  have hj2 : j < a.height := by rw [seamOf_length a hh] at hj; exact hj
  rw [getElem_eq_getD (d := 0) hi, getElem_eq_getD (d := 0) hj,
    seamOf_getD a hh hi2, seamOf_getD a hh hj2]
  have hci : (seamColsOf a).getD i 0 < a.width :=
    (seamColsOf_isColSeam a hw hh).2.1 i hi2
  have hmul : a.width * (i + 1) ≤ a.width * j := Nat.mul_le_mul_left _ (by omega)
  have hexp : a.width * (i + 1) = a.width * i + a.width := by ring
  omega

theorem seamOf_bounds (a : OriginalAlgo) (hw : 2 ≤ a.width) (hh : 1 ≤ a.height) :
    ∀ x ∈ seamOf a, x < a.width * a.height := by
  intro x hx
  rw [List.mem_iff_getElem] at hx
  obtain ⟨i, hi, hxi⟩ := hx
  have hi2 : i < a.height := by rw [seamOf_length a hh] at hi; exact hi
  rw [← hxi, getElem_eq_getD (d := 0) hi, seamOf_getD a hh hi2]
  exact flat_index_lt hi2 ((seamColsOf_isColSeam a hw hh).2.1 i hi2)

theorem removeIndices_seamOf_length (a : OriginalAlgo) (hwf : a.wf)
    (hw : 2 ≤ a.width) (hh : 1 ≤ a.height) :
    (removeIndices a.pixels (seamOf a)).length = a.pixels.length - a.height := by
  rw [removeIndices_length a.pixels (seamOf a) (seamOf_pairwise a hw hh)
    (by intro j hj; rw [hwf]; exact seamOf_bounds a hw hh j hj)]
  rw [seamOf_length a hh]

/-! ### The engine loop and history replay -/

theorem sub?_some_iff {x y z : Nat} : sub? x y = some z ↔ y ≤ x ∧ z = x - y := by
  by_cases hle : y ≤ x
  · rw [sub?, if_pos hle]
    simp [hle, eq_comm]
  · rw [sub?, if_neg hle]
    simp [hle]

/-- Whatever offsets `remove_vertical_seam` returns, the updated state is the
filtered pixels with the width decremented. -/
theorem rvs_shape {a : OriginalAlgo} {tr : List Nat} {a' : OriginalAlgo}
    (hsome : remove_vertical_seam a = some (tr, a')) :
    a'.pixels = removeIndices a.pixels tr ∧ a'.width = a.width - 1 ∧
      a'.height = a.height ∧ 1 ≤ a.width := by
  rw [remove_vertical_seam] at hsome
  simp only [Option.bind_eq_bind, Option.bind_eq_some, Option.pure_def,
    Option.some.injEq, Prod.mk.injEq] at hsome
  obtain ⟨em, hem, dp, hdp, hm1, hhm1, wm1, hwm1, rev, hrev, htr, ha'⟩ := hsome
  obtain ⟨hw1, hwm1eq⟩ := sub?_some_iff.mp hwm1
  subst htr
  rw [← ha']
  simp [hwm1eq, hw1]

theorem runEngineLoop_succ (n : Nat) (a : OriginalAlgo) (hist : List (List Nat)) :
    runEngineLoop (n + 1) a hist =
      (remove_vertical_seam a).bind (fun p => runEngineLoop n p.2 (hist ++ [p.1])) :=
  rfl

/-- The history accumulator of the worker loop is a pure prefix. -/
theorem runEngineLoop_acc : ∀ (n : Nat) (a : OriginalAlgo) (acc : List (List Nat)),
    runEngineLoop n a acc = (runEngineLoop n a []).map (fun p => (acc ++ p.1, p.2)) := by
  intro n
  induction n with
  | zero => intro a acc; simp [runEngineLoop]
  | succ n ih =>
    intro a acc
    rw [runEngineLoop_succ, runEngineLoop_succ]
    cases hr : remove_vertical_seam a with
    | none => rfl
    | some p =>
      simp only [Option.some_bind]
      rw [ih p.2 (acc ++ [p.1]), ih p.2 ([] ++ [p.1]), Option.map_map]
      congr 1
      funext q
      simp [Function.comp, List.append_assoc]

/-- Replay characterisation of the worker: after `n` seam removals the
private grid is the fold of the recorded history over the original pixels. -/
theorem runEngineLoop_replay : ∀ (n : Nat) (a : OriginalAlgo) {hist : List (List Nat)}
    {a' : OriginalAlgo}, runEngineLoop n a [] = some (hist, a') →
    hist.length = n ∧ a'.pixels = hist.foldl removeIndices a.pixels ∧
      a'.width + n = a.width ∧ a'.height = a.height := by
  intro n
  induction n with
  | zero =>
    intro a hist a' hsome
    rw [runEngineLoop] at hsome
    simp only [Option.some.injEq, Prod.mk.injEq] at hsome
    obtain ⟨h1, h2⟩ := hsome
    subst h1
    subst h2
    simp
  | succ n ih =>
    intro a hist a' hsome
    rw [runEngineLoop_succ, Option.bind_eq_some] at hsome
    obtain ⟨p, hp, hrest⟩ := hsome
    rw [runEngineLoop_acc, Option.map_eq_some'] at hrest
    obtain ⟨q, hq, hpair⟩ := hrest
    simp only [List.nil_append, Prod.mk.injEq] at hpair
    obtain ⟨hhist, ha'⟩ := hpair
    obtain ⟨hq1, hq2, hq3, hq4⟩ := ih p.2 hq
    obtain ⟨hs1, hs2, hs3, hs4⟩ := rvs_shape hp
    subst hhist
    refine ⟨?_, ?_, ?_, ?_⟩
    · simp [hq1]
    · rw [← ha', hq2, List.singleton_append, List.foldl_cons, ← hs1]
    · rw [← ha']
      omega
    · rw [← ha', hq4, hs3]

/-- Totality of the worker loop: `n` iterations succeed whenever the grid is
well-formed, at least one row high, and strictly wider than `n + 1 - 1`. -/
theorem runEngineLoop_total : ∀ (n : Nat) (a : OriginalAlgo), a.wf → 1 ≤ a.height →
    n + 1 ≤ a.width → ∃ hist a', runEngineLoop n a [] = some (hist, a') ∧
      hist.length = n ∧ a'.width = a.width - n ∧ a'.height = a.height ∧ a'.wf := by
  intro n
  induction n with
  | zero =>
    intro a hwf hh _
    exact ⟨[], a, rfl, rfl, by omega, rfl, hwf⟩
  | succ n ih =>
    intro a hwf hh hwn
    have hw2 : 2 ≤ a.width := by omega
    have hstep := remove_vertical_seam_eq a hwf hw2 hh
    set a1 : OriginalAlgo :=
      { pixels := removeIndices a.pixels (seamOf a), width := a.width - 1,
        height := a.height } with ha1
    have ha1wf : a1.wf := by
      rw [OriginalAlgo.wf, ha1]
      simp only
      rw [removeIndices_seamOf_length a hwf hw2 hh, hwf, Nat.sub_mul, one_mul]
    obtain ⟨hist1, a', hloop, hlen, hwid, hht, hwf'⟩ := ih a1
      (by exact ha1wf) (by exact hh) (by show n + 1 ≤ a.width - 1; omega)
    refine ⟨[seamOf a] ++ hist1, a', ?_, ?_, ?_, ?_, hwf'⟩
    · rw [runEngineLoop_succ, hstep, Option.some_bind, List.nil_append,
        runEngineLoop_acc, hloop]
      rfl
    · simp [hlen]
    · rw [hwid]
      show a.width - 1 - n = a.width - (n + 1)
      omega
    · rw [hht]

/-- When enough seams exist, `remove_seams` succeeds and folds the filter
over exactly the first `n` history entries. -/
theorem remove_seams_take : ∀ (n : Nat) (hist : List (List Nat)) (px : List Pixel),
    n ≤ hist.length →
    remove_seams px hist n = some ((hist.take n).foldl removeIndices px) := by
  intro n
  induction n with
  | zero => intro hist px _; rfl
  | succ n ih =>
    intro hist px h
    have hn := ih hist px (by omega)
    rw [remove_seams] at hn ⊢
    rw [List.range_succ, List.foldlM_append, hn]
    simp only [Option.bind_eq_bind, Option.some_bind, List.foldlM_cons, List.foldlM_nil]
    rw [getElem?_of_lt (d := []) (show n < hist.length by omega)]
    simp only [Option.bind_eq_bind, Option.some_bind, Option.pure_def]
    rw [List.take_succ, getElem?_of_lt (d := []) (show n < hist.length by omega)]
    rw [List.foldl_append]
    rfl

/-- When the requested count exceeds the recorded history, `remove_seams`
fails: the history indexing is out of bounds. -/
theorem remove_seams_none : ∀ (n : Nat) (hist : List (List Nat)) (px : List Pixel),
    hist.length < n → remove_seams px hist n = none := by
  intro n
  induction n with
  | zero => intro hist px h; omega
  | succ n ih =>
    intro hist px h
    rw [remove_seams, List.range_succ, List.foldlM_append]
    by_cases hc : hist.length < n
    · have hnone := ih hist px hc
      rw [remove_seams] at hnone
      rw [hnone]
      rfl
    · have hsome := remove_seams_take n hist px (by omega)
      rw [remove_seams] at hsome
      rw [hsome]
      simp only [Option.bind_eq_bind, Option.some_bind, List.foldlM_cons]
      rw [List.getElem?_eq_none (show hist.length ≤ n by omega)]
      rfl

/-! ### Degenerate widths and uniform grids -/

/-- On a single-column grid with at least two rows, the dp construction
indexes `dp[width*(row-1)+1]` out of bounds, so the whole call fails. -/
theorem rvs_width1_none (a : OriginalAlgo) (hwf : a.wf) (hw : a.width = 1)
    (hh : 2 ≤ a.height) : remove_vertical_seam a = none := by
  obtain ⟨em, hem, hemlen, hement⟩ := calculate_energy_matrix_eq a hwf
  have hlen : em.length = a.height := by rw [hemlen, hw, one_mul]
  have hidx1 : index_of 1 1 0 = 1 := by rw [index_of]
  have hidx2 : index_of 1 0 0 = 0 := by rw [index_of]
  have hidx3 : index_of 1 0 1 = 1 := by rw [index_of]
  have hstep : dpRowStep 1 em (em.take 1) 1 = none := by
    rw [dpRowStep, hidx1]
    rw [getElem?_of_lt (d := 0) (show (1:Nat) < em.length by omega)]
    simp only [Option.bind_eq_bind, Option.some_bind]
    rw [hidx2, getElem?_of_lt (d := 0)
      (show (0:Nat) < (em.take 1).length by rw [List.length_take]; omega)]
    simp only [Option.some_bind]
    rw [hidx3, List.getElem?_eq_none
      (show (em.take 1).length ≤ 1 by rw [List.length_take]; omega)]
    rfl
  have hbd : buildDp a.width a.height em = none := by
    rw [hw, buildDp, if_pos (show 1 ≤ em.length by omega)]
    have hsplit : a.height - 1 = (a.height - 2) + 1 := by omega
    rw [hsplit, List.range'_succ, List.foldlM_cons, hstep]
    rfl
  rw [remove_vertical_seam, hem]
  simp only [Option.bind_eq_bind, Option.some_bind]
  rw [hbd]
  rfl

/-- On a 1×1 grid the call succeeds and removes the only pixel. -/
theorem rvs_width1_height1 (a : OriginalAlgo) (hwf : a.wf) (hw : a.width = 1)
    (hh : a.height = 1) :
    remove_vertical_seam a = some ([0], { pixels := [], width := 0, height := 1 }) := by
  have hlen1 : a.pixels.length = 1 := by rw [hwf, hw, hh]
  obtain ⟨p, hp⟩ := List.length_eq_one.mp hlen1
  obtain ⟨px, wid, ht⟩ := a
  have hp' : px = [p] := hp
  have hw' : wid = 1 := hw
  have hh' : ht = 1 := hh
  subst hp'
  subst hw'
  subst hh'
  have h00 : energyAt? ⟨[p], 1, 1⟩ 0 0 = some 0 := by
    simp [energyAt?, i32_as_u32, sub_self]
  have hem : calculate_energy_matrix ⟨[p], 1, 1⟩ = some [0] := by
    have hr1 : List.range 1 = [0] := rfl
    rw [calculate_energy_matrix]
    simp only
    rw [hr1]
    rw [List.mapM_cons, List.mapM_cons, List.mapM_nil, h00]
    rfl
  rw [remove_vertical_seam, hem]
  simp only [Option.bind_eq_bind, Option.some_bind]
  rfl

theorem sqDiff3_self (p : Pixel) : sqDiff3 p p = 0 := by
  simp [sqDiff3]

theorem replicate_getD {α : Type} {n i : Nat} {x d : α} (h : i < n) :
    (List.replicate n x).getD i d = x := by
  apply getD_of_getElem?
  rw [List.getElem?_replicate, if_pos h]

/-- A uniform single-colour grid. -/
def uniformGrid (p : Pixel) (wu hu : Nat) : OriginalAlgo :=
  ⟨List.replicate (wu * hu) p, wu, hu⟩

/-- On a uniform single-colour grid every energy value is zero. -/
theorem uniform_energyVal (p : Pixel) (wu hu : Nat) {r c : Nat} (hr : r < hu)
    (hc : c < wu) :
    energyVal (uniformGrid p wu hu) r c = 0 := by
  set u : OriginalAlgo := uniformGrid p wu hu with hu0
  have hpx : ∀ i, i < wu * hu → pixAt u i = p := by
    intro i hi
    show (List.replicate (wu * hu) p).getD i pxZero = p
    exact replicate_getD hi
  have hwid : u.width = wu := rfl
  have hhtu : u.height = hu := rfl
  have hself : wu * r + c < wu * hu := flat_index_lt hr hc
  have hl : leftPx u r c = p := by
    rw [leftPx, hwid]
    split
    · exact hpx _ hself
    · exact hpx _ (by omega)
  have hrt : rightPx u r c = p := by
    rw [rightPx, hwid]
    split
    · exact hpx _ hself
    · next hne =>
        have hb : wu * r + (c + 1) < wu * hu := flat_index_lt hr (by
          have hcne : c ≠ wu - 1 := hne
          omega)
        exact hpx _ (by omega)
  have hab : abovePx u r c = p := by
    rw [abovePx, hwid]
    split
    · exact hpx _ hself
    · exact hpx _ (flat_index_lt (by omega) hc)
  have hbl : belowPx u r c = p := by
    rw [belowPx, hwid, hhtu]
    split
    · exact hpx _ hself
    · next hne =>
        exact hpx _ (flat_index_lt (by
          have hrne : r ≠ hu - 1 := hne
          omega) hc)
  rw [energyVal, energyInt, hl, hrt, hab, hbl, sqDiff3_self]
  rfl

/-- Reversing the offset decoration: entry `r` of the reversed list is the
flat offset of row `r`. -/
theorem offsetsOf_reverse_getD (w : Nat) (cs : List Nat) (row r : Nat)
    (hlen : cs.length = row + 1) (hr : r ≤ row) :
    (offsetsOf w row cs).reverse.getD r 0 = w * r + cs.getD (row - r) 0 := by
  have holen : (offsetsOf w row cs).length = row + 1 := by
    rw [offsetsOf_length, hlen]
  apply getD_of_getElem?
  rw [List.getElem?_reverse (by rw [holen]; omega), holen]
  have hj : row + 1 - 1 - r = row - r := by omega
  rw [hj, getElem?_of_lt (d := 0) (by rw [holen]; omega)]
  rw [offsetsOf_getD w cs row (row - r) (by omega)]
  have hr2 : row - (row - r) = r := by omega
  rw [hr2]

/-- Splitting the worker loop: `n + m` iterations are `n` iterations followed
by `m` more from the reached state. -/
theorem runEngineLoop_add : ∀ (n m : Nat) (a : OriginalAlgo) (acc : List (List Nat)),
    runEngineLoop (n + m) a acc =
      (runEngineLoop n a acc).bind (fun p => runEngineLoop m p.2 p.1) := by
  intro n
  induction n with
  | zero =>
    intro m a acc
    rw [Nat.zero_add]
    rfl
  | succ n ih =>
    intro m a acc
    have harith : n + 1 + m = (n + m) + 1 := by omega
    rw [harith, runEngineLoop_succ, runEngineLoop_succ]
    cases hr : remove_vertical_seam a with
    | none => rfl
    | some p =>
      simp only [Option.some_bind]
      exact ih m p.2 (acc ++ [p.1])

/-! ### Concrete grids used by the claims -/

/-- The black pixel `(0,0,0)`. -/
def pxB : Pixel := ⟨0, 0, 0⟩

/-- The bright pixel `(10,10,10)`. -/
def pxW : Pixel := ⟨10, 10, 10⟩

/-- The 3×3 grid of the specification scenario: column 1 bright, columns 0
and 2 black. -/
def g3 : OriginalAlgo :=
  OriginalAlgo.new [pxB, pxW, pxB, pxB, pxW, pxB, pxB, pxW, pxB] 3 3

/-- A 1×2 grid (one column, two rows). -/
def g12 : OriginalAlgo := OriginalAlgo.new [pxB, pxB] 1 2

/-- A 3×1 grid with a bright middle pixel. -/
def g31 : OriginalAlgo := OriginalAlgo.new [pxB, pxW, pxB] 3 1

/-- An 11×1 uniform grid, one wider than the engine's width floor. -/
def g11w : OriginalAlgo := OriginalAlgo.new (List.replicate 11 pxB) 11 1

/-- The energy function of the 2×2 grid used to witness the tie-break claim. -/
def eC3 : Nat → Nat → Nat := fun r c =>
  if r = 0 then (if c = 0 then 1 else 0) else (if c = 0 then 5 else 7)

/-! ### The claims -/

/-- C1 counterexample: on the 3×3 scenario grid the energy of column 1 is 0
in row 0 (not strictly positive), and the first seam selects column 1 in
every row — flat offsets `[1, 4, 7]` — not column 0. The claim as stated is
therefore false on this input. -/
theorem claim_C1_counterexample :
    calculate_energy_matrix g3 = some [300, 0, 300, 300, 0, 300, 300, 0, 300] ∧
    remove_vertical_seam g3 = some ([1, 4, 7],
      { pixels := [pxB, pxB, pxB, pxB, pxB, pxB], width := 2, height := 3 }) := by
  constructor
  · decide
  · decide

/-- C1 amended: for the 3×3 scenario grid, every entry of column 1 of the
energy grid is 0 while the entries of columns 0 and 2 are strictly positive,
and the first seam returned by `remove_vertical_seam` selects column 1 for
every row (offsets 1, 4, 7) and never column 0. -/
theorem claim_C1_amended :
    calculate_energy_matrix g3 = some [300, 0, 300, 300, 0, 300, 300, 0, 300] ∧
    (∀ r, r < 3 →
      ([300, 0, 300, 300, 0, 300, 300, 0, 300] : List Nat).getD (3 * r + 1) 0 = 0 ∧
      0 < ([300, 0, 300, 300, 0, 300, 300, 0, 300] : List Nat).getD (3 * r) 0 ∧
      0 < ([300, 0, 300, 300, 0, 300, 300, 0, 300] : List Nat).getD (3 * r + 2) 0) ∧
    remove_vertical_seam g3 = some ([1, 4, 7],
      { pixels := [pxB, pxB, pxB, pxB, pxB, pxB], width := 2, height := 3 }) ∧
    ∀ r, r < 3 → ([1, 4, 7] : List Nat).getD r 0 = 3 * r + 1 := by
  refine ⟨by decide, by decide, by decide, by decide⟩

/-- C2: on every well-formed grid with width ≥ 2 and height ≥ 1,
`remove_vertical_seam` succeeds; the returned offsets form one column per
row (a connected vertical seam), and the seam's total energy over the energy
grid of the same pixels is minimal among all connected vertical seams. -/
theorem claim_C2 (a : OriginalAlgo) (hwf : a.wf) (hw : 2 ≤ a.width)
    (hh : 1 ≤ a.height) :
    ∃ tr a' cols, remove_vertical_seam a = some (tr, a') ∧
      tr.length = a.height ∧ cols.length = a.height ∧
      (∀ r, r < a.height → tr.getD r 0 = a.width * r + cols.getD r 0) ∧
      IsColSeam a.width a.height cols ∧
      ∀ s, IsColSeam a.width a.height s →
        colSeamCost (energyVal a) a.height cols ≤
          colSeamCost (energyVal a) a.height s := by
  refine ⟨seamOf a, _, seamColsOf a, remove_vertical_seam_eq a hwf hw hh,
    seamOf_length a hh, seamColsOf_length a, ?_,
    seamColsOf_isColSeam a hw hh, seamColsOf_minimal a hw hh⟩
  intro r hr
  exact seamOf_getD a hh hr

/-- C2 witness at the 3×3 scenario grid. -/
theorem claim_C2_witness :
    g3.wf ∧ 2 ≤ g3.width ∧ 1 ≤ g3.height ∧
    (∃ tr a' cols, remove_vertical_seam g3 = some (tr, a') ∧
      tr.length = g3.height ∧ cols.length = g3.height ∧
      (∀ r, r < g3.height → tr.getD r 0 = g3.width * r + cols.getD r 0) ∧
      IsColSeam g3.width g3.height cols ∧
      ∀ s, IsColSeam g3.width g3.height s →
        colSeamCost (energyVal g3) g3.height cols ≤
          colSeamCost (energyVal g3) g3.height s) :=
  ⟨by decide, by decide, by decide, claim_C2 g3 (by decide) (by decide) (by decide)⟩

/-- C4 counterexample: the 1×2 grid is well-formed with width exactly 1, yet
`remove_vertical_seam` fails (out-of-bounds dp access), contradicting
"defined for every grid with width ≥ 1 and height ≥ 1". -/
theorem claim_C4_counterexample :
    g12.wf ∧ g12.width = 1 ∧ 1 ≤ g12.height ∧ remove_vertical_seam g12 = none := by
  refine ⟨by decide, by decide, by decide, by decide⟩

/-- C4 amended: seam finding succeeds on every well-formed grid with
width ≥ 2 and height ≥ 1; on width 1 it succeeds only when the height is
also 1 (returning the single-offset seam `[0]`), while for width 1 and
height ≥ 2 the dp construction indexes out of bounds and the call fails. -/
theorem claim_C4_amended (a : OriginalAlgo) (hwf : a.wf) (hh : 1 ≤ a.height) :
    (2 ≤ a.width → ∃ tr a', remove_vertical_seam a = some (tr, a')) ∧
    (a.width = 1 →
      (a.height = 1 → remove_vertical_seam a =
        some ([0], { pixels := [], width := 0, height := 1 })) ∧
      (2 ≤ a.height → remove_vertical_seam a = none)) := by
  refine ⟨fun hw => ⟨seamOf a, _, remove_vertical_seam_eq a hwf hw hh⟩,
    fun hw1 => ⟨fun hh1 => rvs_width1_height1 a hwf hw1 hh1,
      fun hh2 => rvs_width1_none a hwf hw1 hh2⟩⟩

/-- C4 amended witness at the 3×3 scenario grid. -/
theorem claim_C4_amended_witness :
    g3.wf ∧ 1 ≤ g3.height ∧
    ((2 ≤ g3.width → ∃ tr a', remove_vertical_seam g3 = some (tr, a')) ∧
    (g3.width = 1 →
      (g3.height = 1 → remove_vertical_seam g3 =
        some ([0], { pixels := [], width := 0, height := 1 })) ∧
      (2 ≤ g3.height → remove_vertical_seam g3 = none))) :=
  ⟨by decide, by decide, claim_C4_amended g3 (by decide) (by decide)⟩

/-- C5: on every well-formed grid with width ≥ 2 (and height ≥ 1, the grid
invariant), the returned seam has length exactly `height`, the width drops
by exactly one, the height is unchanged, and the pixel count drops by
exactly `height`. -/
theorem claim_C5 (a : OriginalAlgo) (hwf : a.wf) (hw : 2 ≤ a.width)
    (hh : 1 ≤ a.height) :
    ∃ tr a', remove_vertical_seam a = some (tr, a') ∧
      tr.length = a.height ∧ a'.width = a.width - 1 ∧ a'.height = a.height ∧
      a'.pixels.length = a.pixels.length - a.height := by
  refine ⟨seamOf a, _, remove_vertical_seam_eq a hwf hw hh, seamOf_length a hh,
    rfl, rfl, ?_⟩
  exact removeIndices_seamOf_length a hwf hw hh

/-- C5 witness at the 3×3 scenario grid. -/
theorem claim_C5_witness :
    g3.wf ∧ 2 ≤ g3.width ∧ 1 ≤ g3.height ∧
    (∃ tr a', remove_vertical_seam g3 = some (tr, a') ∧
      tr.length = g3.height ∧ a'.width = g3.width - 1 ∧ a'.height = g3.height ∧
      a'.pixels.length = g3.pixels.length - g3.height) :=
  ⟨by decide, by decide, by decide, claim_C5 g3 (by decide) (by decide) (by decide)⟩

/-- C7 counterexample: with an empty history, requesting one seam fails
(`removed_seams[0]` is out of bounds); no clamping happens. -/
theorem claim_C7_counterexample : remove_seams [pxB] [] 1 = none := by decide

/-- C7 amended: `remove_seams` performs no clamping. For `n` within the
recorded history it succeeds, applying exactly entries `0..n`; for `n`
beyond the history length it fails with an out-of-bounds history access. -/
theorem claim_C7_amended (px : List Pixel) (hist : List (List Nat)) (n : Nat) :
    (n ≤ hist.length →
      remove_seams px hist n = some ((hist.take n).foldl removeIndices px)) ∧
    (hist.length < n → remove_seams px hist n = none) :=
  ⟨remove_seams_take n hist px, remove_seams_none n hist px⟩

/-- C7 amended witness: a one-entry history with `n = 1` succeeds, and the
same history with `n = 2` fails. -/
theorem claim_C7_amended_witness :
    ((1 ≤ ([[0]] : List (List Nat)).length →
      remove_seams [pxB, pxW] [[0]] 1 =
        some ((([[0]] : List (List Nat)).take 1).foldl removeIndices [pxB, pxW])) ∧
    (([[0]] : List (List Nat)).length < 1 → remove_seams [pxB, pxW] [[0]] 1 = none)) :=
  claim_C7_amended [pxB, pxW] [[0]] 1

/-- C8 counterexample: `new` with an empty pixel vector and claimed 5×5
dimensions is not rejected — it returns a state whose invariant
`len(pixels) = width*height` is violated. -/
theorem claim_C8_counterexample :
    OriginalAlgo.new [] 5 5 = { pixels := [], width := 5, height := 5 } ∧
      ¬ (OriginalAlgo.new [] 5 5).wf := by
  refine ⟨by decide, by decide⟩

/-- C8 amended: construction performs no validation at all: for every input,
`new` succeeds and stores the three fields verbatim, whether or not
`len(pixels) = width*height` holds. -/
theorem claim_C8_amended (px : List Pixel) (w h : Nat) :
    OriginalAlgo.new px w h = { pixels := px, width := w, height := h } := rfl

/-- C8 amended witness. -/
theorem claim_C8_amended_witness :
    OriginalAlgo.new [pxB] 2 7 = { pixels := [pxB], width := 2, height := 7 } :=
  claim_C8_amended [pxB] 2 7


/-- C3: for every energy function, grid width ≥ 2 and height ≥ 1, and dp
table of that energy, the backtrace is deterministic with leftmost
tie-breaking: the bottom-row column is the lowest-index column attaining the
minimum dp value of the last row, and each predecessor is the lowest-index
column attaining the minimum dp value among the clipped candidate set. -/
theorem claim_C3 (w h : Nat) (e : Nat → Nat → Nat) (D : List Nat)
    (hD : DpMatch w h e D) (hw : 2 ≤ w) (hh : 1 ≤ h) :
    ∃ out, backtraceLoop w D (h - 1) (index_of w (h - 1) 0)
        (index_of w (h - 1) (w - 1)) [] = some out ∧
      out.length = h ∧
      ∃ cols : List Nat, cols.length = h ∧
        (∀ r, r < h → out.reverse.getD r 0 = w * r + cols.getD r 0) ∧
        IsLeftmostMin (dpVal e w (h - 1)) (List.range w) (cols.getD (h - 1) 0) ∧
        ∀ r, r + 1 < h →
          IsLeftmostMin (dpVal e w r) (candList w (cols.getD (r + 1) 0))
            (cols.getD r 0) := by
  have hb := backtraceLoop_eq hD hw (h - 1) 0 (w - 1) [] (by omega) (by omega)
    (by omega)
  have hcslen : (btCols e w (h - 1) 0 (w - 1)).length = h := by
    rw [btCols_length]
    omega
  have hmapD : ∀ r, r < h →
      ((List.range h).map
        (fun r => (btCols e w (h - 1) 0 (w - 1)).getD (h - 1 - r) 0)).getD r 0 =
      (btCols e w (h - 1) 0 (w - 1)).getD (h - 1 - r) 0 := by
    intro r hr
    apply getD_of_getElem?
    rw [List.getElem?_map, List.getElem?_range hr]
    rfl
  obtain ⟨hhead, hstep⟩ := btCols_leftmost e hw (h - 1)
    (show (0:Nat) ≤ w - 1 by omega) (show w - 1 < w by omega)
  refine ⟨offsetsOf w (h - 1) (btCols e w (h - 1) 0 (w - 1)), ?_, ?_,
    (List.range h).map (fun r => (btCols e w (h - 1) 0 (w - 1)).getD (h - 1 - r) 0),
    by simp, ?_, ?_, ?_⟩
  · show backtraceLoop w D (h - 1) (w * (h - 1) + 0) (w * (h - 1) + (w - 1)) [] = _
    rw [hb, List.nil_append]
  · rw [offsetsOf_length, hcslen]
  · intro r hr
    rw [hmapD r hr,
      offsetsOf_reverse_getD w (btCols e w (h - 1) 0 (w - 1)) (h - 1) r
        (by omega) (by omega)]
  · rw [hmapD (h - 1) (by omega)]
    have hz : h - 1 - (h - 1) = 0 := by omega
    rw [hz]
    have hrange : List.range' 0 (w - 1 + 1 - 0) = List.range w := by
      rw [List.range_eq_range']
      congr 1
      omega
    rw [← hrange]
    exact hhead
  · intro r hr
    rw [hmapD r (by omega), hmapD (r + 1) (by omega)]
    have hth := hstep (h - 1 - (r + 1)) (by omega)
    have e1 : h - 1 - (h - 1 - (r + 1) + 1) = r := by omega
    have e2 : h - 1 - (r + 1) + 1 = h - 1 - r := by omega
    rw [e1, e2] at hth
    have e3 : h - 1 - (r + 1) = h - 1 - r - 1 := by omega
    rw [e3] at hth
    have e4 : h - 1 - (r + 1) = h - 1 - r - 1 := by omega
    rw [e4]
    exact hth

/-- C3 witness: a 2×2 dp table with a tie-free trace. -/
theorem claim_C3_witness :
    DpMatch 2 2 eC3 [1, 0, 5, 7] ∧ 2 ≤ 2 ∧ 1 ≤ 2 ∧
    (∃ out, backtraceLoop 2 [1, 0, 5, 7] (2 - 1) (index_of 2 (2 - 1) 0)
        (index_of 2 (2 - 1) (2 - 1)) [] = some out ∧
      out.length = 2 ∧
      ∃ cols : List Nat, cols.length = 2 ∧
        (∀ r, r < 2 → out.reverse.getD r 0 = 2 * r + cols.getD r 0) ∧
        IsLeftmostMin (dpVal eC3 2 (2 - 1)) (List.range 2) (cols.getD (2 - 1) 0) ∧
        ∀ r, r + 1 < 2 →
          IsLeftmostMin (dpVal eC3 2 r) (candList 2 (cols.getD (r + 1) 0))
            (cols.getD r 0)) :=
  ⟨by decide, by decide, by decide,
    claim_C3 2 2 eC3 [1, 0, 5, 7] (by decide) (by decide) (by decide)⟩

/-- C6: replay determinism. If the worker has performed `m` seam removals
and recorded history `histm`, then for every `n ≤ m` the first `n` history
entries are exactly those of the `n`-step run, and replaying them from a
fresh copy of the original pixels (as `remove_seams` does) reproduces the
worker's private grid after its first `n` removals, pixel for pixel. -/
theorem claim_C6 (a : OriginalAlgo) (n m : Nat) (hnm : n ≤ m)
    (histn histm : List (List Nat)) (an am : OriginalAlgo)
    (h1 : runEngineLoop n a [] = some (histn, an))
    (h2 : runEngineLoop m a [] = some (histm, am)) :
    histn = histm.take n ∧ remove_seams a.pixels histm n = some an.pixels := by
  obtain ⟨hlen_n, hpx_n, _, _⟩ := runEngineLoop_replay n a h1
  have hm : m = n + (m - n) := by omega
  rw [hm, runEngineLoop_add, h1, Option.some_bind, runEngineLoop_acc,
    Option.map_eq_some'] at h2
  obtain ⟨q, hq, hpair⟩ := h2
  simp only [Prod.mk.injEq] at hpair
  obtain ⟨hhm, ham⟩ := hpair
  have htake : histm.take n = histn := by
    rw [← hhm, ← hlen_n, List.take_left]
  have hnlen : n ≤ histm.length := by
    rw [← hhm, List.length_append, hlen_n]
    omega
  constructor
  · rw [htake]
  · rw [remove_seams_take n histm a.pixels hnlen, htake, ← hpx_n]

/-- C6 witness: the 3×1 grid with its two-entry history. -/
theorem claim_C6_witness :
    (1 ≤ 2) ∧
    runEngineLoop 1 g31 [] =
      some ([[1]], { pixels := [pxB, pxB], width := 2, height := 1 }) ∧
    runEngineLoop 2 g31 [] =
      some ([[1], [0]], { pixels := [pxB], width := 1, height := 1 }) ∧
    ([[1]] = ([[1], [0]] : List (List Nat)).take 1 ∧
      remove_seams g31.pixels [[1], [0]] 1 =
        some ({ pixels := [pxB, pxB], width := 2, height := 1 } : OriginalAlgo).pixels) :=
  ⟨by decide, by decide, by decide,
    claim_C6 g31 1 2 (by decide) [[1]] [[1], [0]]
      { pixels := [pxB, pxB], width := 2, height := 1 }
      { pixels := [pxB], width := 1, height := 1 } (by decide) (by decide)⟩

/-- C9: on every well-formed grid, every energy value is computed without
`i32` overflow: the signed intermediate lies in `[0, 390150]`
(`6 · 255² = 390150`), so the final `as u32` cast preserves the value; and a
uniform single-colour grid of any dimensions yields an all-zero energy grid. -/
theorem claim_C9 (a : OriginalAlgo) (hwf : a.wf) (p : Pixel) (wu hu : Nat) :
    (∀ r c, r < a.height → c < a.width →
      energyAt? a r c = some ((energyInt a r c).toNat) ∧
      0 ≤ energyInt a r c ∧ energyInt a r c ≤ 390150 ∧
      i32_as_u32 (energyInt a r c) = (energyInt a r c).toNat) ∧
    (∃ em, calculate_energy_matrix (uniformGrid p wu hu) = some em ∧
      em.length = wu * hu ∧ ∀ i, i < wu * hu → em.getD i 0 = 0) := by
  constructor
  · intro r c hr hc
    refine ⟨?_, energyInt_nonneg a r c, energyInt_le a r c,
      i32_as_u32_of_small (energyInt_nonneg a r c)
        (lt_of_le_of_lt (energyInt_le a r c) (by norm_num))⟩
    rw [energyAt?_eq hwf hr hc, energyVal_eq_toNat]
  · have huwf : (uniformGrid p wu hu).wf := by
      show (List.replicate (wu * hu) p).length = wu * hu
      exact List.length_replicate _ _
    obtain ⟨em, hem, hlen, hent⟩ := calculate_energy_matrix_eq
      (uniformGrid p wu hu) huwf
    have hent' : ∀ r c, r < hu → c < wu → em[wu * r + c]? =
        some (energyVal (uniformGrid p wu hu) r c) := hent
    have hlen' : em.length = wu * hu := hlen
    refine ⟨em, hem, hlen', ?_⟩
    intro i hi
    have hwu0 : 0 < wu := by
      rcases Nat.eq_zero_or_pos wu with h0 | h0
      · rw [h0] at hi
        simp at hi
      · exact h0
    have hc : i % wu < wu := Nat.mod_lt _ hwu0
    have hr : i / wu < hu := by
      by_contra hcon
      push_neg at hcon
      have hm1 : wu * hu ≤ wu * (i / wu) := Nat.mul_le_mul_left _ hcon
      have hm2 : i / wu * wu ≤ i := Nat.div_mul_le_self i wu
      have hm3 : wu * (i / wu) = i / wu * wu := Nat.mul_comm _ _
      omega
    have hth := hent' (i / wu) (i % wu) hr hc
    rw [uniform_energyVal p wu hu hr hc] at hth
    have hid : wu * (i / wu) + i % wu = i := Nat.div_add_mod i wu
    rw [hid] at hth
    exact getD_of_getElem? hth

/-- C9 witness at the 3×3 scenario grid and a 2×2 uniform grid. -/
theorem claim_C9_witness :
    g3.wf ∧
    ((∀ r c, r < g3.height → c < g3.width →
      energyAt? g3 r c = some ((energyInt g3 r c).toNat) ∧
      0 ≤ energyInt g3 r c ∧ energyInt g3 r c ≤ 390150 ∧
      i32_as_u32 (energyInt g3 r c) = (energyInt g3 r c).toNat) ∧
    (∃ em, calculate_energy_matrix (uniformGrid pxW 2 2) = some em ∧
      em.length = 2 * 2 ∧ ∀ i, i < 2 * 2 → em.getD i 0 = 0)) :=
  ⟨by decide, claim_C9 g3 (by decide) pxW 2 2⟩

/-- C10: on every well-formed image with width ≥ 10 (and height ≥ 1), the
background worker performs exactly `width - 10` seam removals and
terminates: the final working grid has width exactly 10 and unchanged
height, and the history holds exactly `width - 10` entries, appended in
production order (every `k`-step run produces exactly the first `k`
entries). -/
theorem claim_C10 (a : OriginalAlgo) (hwf : a.wf) (hw : 10 ≤ a.width)
    (hh : 1 ≤ a.height) :
    ∃ hist a', run_engine a = some (hist, a') ∧
      hist.length = a.width - 10 ∧ a'.width = 10 ∧ a'.height = a.height ∧ a'.wf ∧
      ∀ k, k ≤ a.width - 10 → ∃ histk ak,
        runEngineLoop k a [] = some (histk, ak) ∧ histk = hist.take k := by
  obtain ⟨hist, a', hloop, hlen, hwid, hht, hwf'⟩ :=
    runEngineLoop_total (a.width - 10) a hwf hh (by omega)
  refine ⟨hist, a', ?_, hlen, by rw [hwid]; omega, hht, hwf', ?_⟩
  · rw [run_engine, sub?_eq_some (show 10 ≤ a.width by omega)]
    simp only [Option.bind_eq_bind, Option.some_bind]
    exact hloop
  · intro k hk
    obtain ⟨histk, ak, hlk, hlenk, _, _, _⟩ :=
      runEngineLoop_total k a hwf hh (by omega)
    refine ⟨histk, ak, hlk, ?_⟩
    have hsplit : a.width - 10 = k + (a.width - 10 - k) := by omega
    rw [hsplit, runEngineLoop_add, hlk, Option.some_bind, runEngineLoop_acc,
      Option.map_eq_some'] at hloop
    obtain ⟨q, _, hpair⟩ := hloop
    simp only [Prod.mk.injEq] at hpair
    obtain ⟨hhm, _⟩ := hpair
    rw [← hhm, ← hlenk, List.take_left]

/-- C10 witness at the 11×1 uniform grid: one iteration, final width 10. -/
theorem claim_C10_witness :
    g11w.wf ∧ 10 ≤ g11w.width ∧ 1 ≤ g11w.height ∧
    (∃ hist a', run_engine g11w = some (hist, a') ∧
      hist.length = g11w.width - 10 ∧ a'.width = 10 ∧ a'.height = g11w.height ∧
      a'.wf ∧
      ∀ k, k ≤ g11w.width - 10 → ∃ histk ak,
        runEngineLoop k g11w [] = some (histk, ak) ∧ histk = hist.take k) :=
  ⟨by decide, by decide, by decide,
    claim_C10 g11w (by decide) (by decide) (by decide)⟩

end LiquidResize
